import Mathlib

/-!
Verification of the analysis orchestration pipeline of the AI medical report
analyzer: text chunking (`app/utils/text_chunker.py` and
`GeminiAIService._chunk_text` in `app/services/ai_service.py`), result merging
(`GeminiAIService._merge` and `merge_chunk_results`), the in-memory fingerprint
cache (`_Cache`), the rate limiter (`RateLimitMiddleware.dispatch`), text
normalization (`app/utils/file_handler.py`) and the `analyze_text`
orchestration.

Modelling conventions:
* Python strings are `List Char` in the chunking code (character-level
  recursion mirrors the regex scans) and `String` in the merge code.
* Whitespace is the ASCII class of Python `\s` (space, tab, LF, CR, VT, FF);
  the texts under analysis are ASCII, where Python `\s`, `str.strip` and
  `str.split` all use exactly this class.
* Python floats are modelled as exact rationals; `round(x, n)` is round half
  to even at `n` decimal digits.
* Timestamps (`time.time()`) are rationals supplied explicitly to each call.
* Fallible code returns `Option`: `none` models a raised exception where the
  definition says so.
-/

namespace MedPipeline

/-- Whitespace predicate used throughout: Python `\s` / `str.strip` /
`str.split` on ASCII texts — space, tab, newline, carriage return, vertical
tab and form feed. -/
def isWs (c : Char) : Bool := c.isWhitespace || c = '\x0b' || c = '\x0c'

/-- Dropping a prefix by predicate never lengthens a list (termination
helper). -/
theorem length_dropWhile_le (p : α → Bool) (l : List α) :
    (l.dropWhile p).length ≤ l.length :=
  (List.dropWhile_sublist (l := l) (p := p)).length_le

/-- One step of the whitespace split: a whitespace character opens a new
(initially empty) fragment, any other character is prepended to the current
first fragment. -/
def wsStep (c : Char) (acc : List (List Char)) : List (List Char) :=
  if isWs c then [] :: acc
  else
    match acc with
    | [] => [[c]]
    | w :: ws => (c :: w) :: ws

/-- Python `str.split()` pieces: split at every whitespace character, keeping
(possibly empty) fragments.  Defined by `foldr` so proofs are structural. -/
def splitWsPieces (l : List Char) : List (List Char) :=
  l.foldr wsStep [[]]

/-- Python `str.split()` (no argument): whitespace-separated words. -/
def wordsOf (l : List Char) : List (List Char) :=
  (splitWsPieces l).filter (fun w => w ≠ [])

/-- Leading-whitespace strip (left part of Python `str.strip()`). -/
def lstrip (l : List Char) : List Char := l.dropWhile isWs

/-- Trailing-whitespace strip (right part of Python `str.strip()`). -/
def rstrip (l : List Char) : List Char := (l.reverse.dropWhile isWs).reverse

/-- Python `str.strip()`. -/
def strip (l : List Char) : List Char := rstrip (lstrip l)

/-- Scan of `re.sub(r'\s+', ' ', ·)`: `inRun` records whether the previous
character was whitespace (inside a run already replaced by one space). -/
def collapseRunsGo (inRun : Bool) : List Char → List Char
  | [] => []
  | c :: cs =>
    if isWs c then
      if inRun then collapseRunsGo true cs else ' ' :: collapseRunsGo true cs
    else c :: collapseRunsGo false cs

/-- `re.sub(r'\s+', ' ', ·)`: every whitespace run becomes a single space. -/
def collapseRuns (l : List Char) : List Char := collapseRunsGo false l

/-- `text_chunker.chunk_text` line 44: `re.sub(r'\s+', ' ', text.strip())`. -/
def normWs (l : List Char) : List Char := collapseRuns (strip l)

/-! ### Sentence splitting (`text_chunker.split_into_sentences`) -/

/-- The abbreviation alternatives of the regex
`\b(Dr|Mr|Mrs|Ms|Prof|vs|etc|approx|temp|freq|min|max|avg)\.\s*`, in
alternation order. -/
def ABBREVS : List (List Char) :=
  ["Dr".data, "Mr".data, "Mrs".data, "Ms".data, "Prof".data, "vs".data,
   "etc".data, "approx".data, "temp".data, "freq".data, "min".data,
   "max".data, "avg".data]

/-- Python `\w` (ASCII): letters, digits, underscore. -/
def isWordChar (c : Char) : Bool := c.isAlphanum || c = '_'

/-- At the current position, the first regex alternative `A` such that the
text starts with `A.` (the backtracking order of the alternation). -/
def matchAbbrev (l : List Char) : Option (List Char) :=
  ABBREVS.findSome? fun a =>
    if a.isPrefixOf l && ((l.drop a.length).head? == some '.') then some a
    else none

/-- The replacement text `<PERIOD> ` of the abbreviation substitution. -/
def PERIODTOK : List Char := "<PERIOD> ".data

/-- Scanner state of the abbreviation substitution: scanning (`prevW` is the
`\b` lookaround — whether the previous character is a word character), or
consuming the matched `A.` (`k` characters left) and then its `\s*` run
(`k = 0`). -/
inductive AbbrevMode where
  | scan (prevW : Bool)
  | skipThenWs (k : Nat)
deriving DecidableEq, Repr

/-- Scan of `re.sub(r'\b(...)\.\s*', r'\1<PERIOD> ', text)`: on a match the
replacement `A<PERIOD> ` is emitted and the matched `A.` plus the following
whitespace run are consumed; scanning resumes after the consumed run (the
character before the resume point is `.` or whitespace, so the next `\b`
holds). -/
def abbrevSubGo : AbbrevMode → List Char → List Char
  | _, [] => []
  | .skipThenWs (k + 1), _ :: cs => abbrevSubGo (.skipThenWs k) cs
  | .skipThenWs 0, c :: cs =>
    if isWs c then abbrevSubGo (.skipThenWs 0) cs
    else
      match matchAbbrev (c :: cs) with
      | some a => a ++ PERIODTOK ++ abbrevSubGo (.skipThenWs a.length) cs
      | none => c :: abbrevSubGo (.scan (isWordChar c)) cs
  | .scan prevW, c :: cs =>
    match (if prevW then none else matchAbbrev (c :: cs)) with
    | some a => a ++ PERIODTOK ++ abbrevSubGo (.skipThenWs a.length) cs
    | none => c :: abbrevSubGo (.scan (isWordChar c)) cs

/-- The abbreviation substitution applied to a whole string (no previous
character at the start). -/
def abbrevSub (l : List Char) : List Char := abbrevSubGo (.scan false) l

/-- Sentence terminators of the lookbehind `(?<=[.!?])`. -/
def isSentEnd (c : Char) : Bool := c = '.' || c = '!' || c = '?'

/-- Lookbehind test of the sentence split: the previous character is one of
`.!?` (no previous character at the start of the text). -/
def prevSentEnd : Option Char → Bool
  | some p => isSentEnd p
  | none => false

/-- Scan of `re.split(r'(?<=[.!?])\s+', text)`: returns the first piece and
the remaining pieces.  `prev` is the character just before the current
position; `skip` is true while consuming the whitespace run of a match (a
new piece starts at the next non-whitespace character). -/
def splitSentAux (prev : Option Char) (skip : Bool) :
    List Char → List Char × List (List Char)
  | [] => ([], [])
  | c :: cs =>
    if skip && isWs c then splitSentAux (some c) true cs
    else if isWs c && prevSentEnd prev then
      ([], (splitSentAux (some c) true cs).1 :: (splitSentAux (some c) true cs).2)
    else
      ((c :: (splitSentAux (some c) false cs).1), (splitSentAux (some c) false cs).2)

/-- `re.split(r'(?<=[.!?])\s+', text)`. -/
def splitSent (l : List Char) : List (List Char) :=
  (splitSentAux none false l).1 :: (splitSentAux none false l).2

/-- `s.replace('<PERIOD>', '.')`: left-to-right non-overlapping replacement of
the literal marker by a period (`k` characters of a recognized marker still to
consume). -/
def replTokGo : Nat → List Char → List Char
  | k + 1, _ :: cs => replTokGo k cs
  | _, [] => []
  | 0, c :: cs =>
    if "<PERIOD>".data.isPrefixOf (c :: cs) then '.' :: replTokGo 7 cs
    else c :: replTokGo 0 cs

/-- `s.replace('<PERIOD>', '.')`. -/
def replTok (l : List Char) : List Char := replTokGo 0 l

/-- `text_chunker.split_into_sentences`: abbreviation periods are protected,
the text is split on sentence ends, periods are restored, and the pieces are
stripped with empty pieces dropped. -/
def split_into_sentences (text : List Char) : List (List Char) :=
  (((splitSent (abbrevSub text)).map replTok).map strip).filter
    (fun s => s ≠ [])

/-! ### Chunking (`text_chunker.chunk_text`) -/

/-- The guarded append `if current_chunk: chunks.append(current_chunk)` (also
`if word_chunk: chunks.append(word_chunk)`) of `chunk_text`. -/
def appendCur (chunks : List (List Char)) (cur : List Char) : List (List Char) :=
  if cur ≠ [] then chunks ++ [cur] else chunks

/-- Inner word loop of `chunk_text` (hard split of an over-budget sentence on
word boundaries): returns the updated chunk list and the final `word_chunk`
accumulator. -/
def wordLoop (maxChars : Nat) (chunks : List (List Char)) (wc : List Char) :
    List (List Char) → List (List Char) × List Char
  | [] => (chunks, wc)
  | w :: ws =>
    if (wc ++ ' ' :: w).length ≤ maxChars then
      wordLoop maxChars chunks (strip (wc ++ ' ' :: w)) ws
    else
      wordLoop maxChars (appendCur chunks wc) w ws

/-- Main sentence loop of `chunk_text` together with the trailing
`if current_chunk: chunks.append(current_chunk)`.  (The candidate string is
`(current_chunk + " " + sentence).strip()`.) -/
def chunkLoop (maxChars : Nat) (chunks : List (List Char)) (cur : List Char) :
    List (List Char) → List (List Char)
  | [] => appendCur chunks cur
  | s :: ss =>
    if (strip (cur ++ ' ' :: s)).length ≤ maxChars then
      chunkLoop maxChars chunks (strip (cur ++ ' ' :: s)) ss
    else if maxChars < s.length then
      chunkLoop maxChars (wordLoop maxChars (appendCur chunks cur) [] (wordsOf s)).1
        (if (wordLoop maxChars (appendCur chunks cur) [] (wordsOf s)).2 ≠ [] then
          (wordLoop maxChars (appendCur chunks cur) [] (wordsOf s)).2
        else cur) ss
    else chunkLoop maxChars (appendCur chunks cur) s ss

/-- `text_chunker.chunk_text text max_chars`: whitespace is normalized; a text
within budget is one chunk; otherwise sentences are accumulated into chunks,
over-budget sentences being hard-split on word boundaries. -/
def chunk_text (text : List Char) (maxChars : Nat) : List (List Char) :=
  if (normWs text).length ≤ maxChars then [normWs text]
  else chunkLoop maxChars [] [] (split_into_sentences (normWs text))

/-! ### Service-local chunking (`GeminiAIService._chunk_text`) -/

/-- Loop of `GeminiAIService._chunk_text` with the final append: sentences are
accumulated; no hard split of over-budget sentences. -/
def aiChunkLoop (maxChars : Nat) (chunks : List (List Char)) (cur : List Char) :
    List (List Char) → List (List Char)
  | [] => if cur ≠ [] then chunks ++ [strip cur] else chunks
  | s :: ss =>
    if maxChars < cur.length + s.length + 1 && cur ≠ [] then
      aiChunkLoop maxChars (chunks ++ [strip cur]) s ss
    else
      aiChunkLoop maxChars chunks
        (if cur ≠ [] then strip (cur ++ ' ' :: s) else s) ss

/-- `GeminiAIService._chunk_text text max_chars` (default budget 6000): raw
sentence split, no whitespace normalization, no hard split of long
sentences. -/
def gemini_chunk_text (text : List Char) (maxChars : Nat) : List (List Char) :=
  if text.length ≤ maxChars then [text]
  else aiChunkLoop maxChars [] [] (splitSent text)

/-! ### Data model of partial results (the JSON shape of `ANALYSIS_PROMPT`) -/

/-- `patient_info` sub-dict: nullable strings. -/
structure PatientInfo where
  age : Option String
  gender : Option String
deriving DecidableEq, Repr

/-- The structured extraction for one chunk (`PartialResult` of the spec).
`none` in an `Option` field models JSON `null` / an absent key; a list field
absent or `null` in the dict reads as `[]` through the `or []` accesses. -/
structure PartialResult where
  patient_info : PatientInfo := ⟨none, none⟩
  symptoms : List String := []
  medications : List String := []
  procedures : List String := []
  lab_values : List String := []
  body_parts : List String := []
  risk_flags : List String := []
  clinical_impression : Option String := none
  specialty_classification : Option String := none
  professional_summary : Option String := none
  patient_friendly_summary : Option String := none
  confidence_score : Option ℚ := none
deriving DecidableEq, Repr

/-- Python `str.lower()` (ASCII model). -/
def pyLower (s : String) : String := ⟨s.data.map Char.toLower⟩

/-- Python `str.strip()` on `String`. -/
def pyStrip (s : String) : String := ⟨strip s.data⟩

/-- Python truthiness of an optional string: a non-null, non-empty string. -/
def pyTruthy : Option String → Bool
  | some s => s ≠ ""
  | none => false

/-- Round half to even of a rational, computed on numerator and denominator:
`f` is the floor, `rem/den` the fractional part, ties go to the even
neighbour.  (Python `round` on floats, idealized to exact values.) -/
def roundHalfEven (x : ℚ) : ℤ :=
  let f := Int.fdiv x.num x.den
  let rem := x.num - f * x.den
  if 2 * rem < (x.den : ℤ) then f
  else if (x.den : ℤ) < 2 * rem then f + 1
  else if f % 2 = 0 then f else f + 1

/-- `round(x, nd)`. -/
def py_round (nd : Nat) (x : ℚ) : ℚ := (roundHalfEven (x * 10 ^ nd) : ℚ) / 10 ^ nd

/-! ### `GeminiAIService._merge` -/

/-- The `best` closure of `_merge`: keep non-null non-empty strings, return
the longest (Python `max` keeps the first among equals). -/
def bestStr (vals : List (Option String)) : Option String :=
  match (vals.filterMap id).filter (fun v => v ≠ "") with
  | [] => none
  | x :: xs => some (xs.foldl (fun acc y => if acc.length < y.length then y else acc) x)

/-- The `dedup` closure of `_merge` with its `seen` set: the key of an item is
`str(x).lower().strip()`. -/
def dedupGo (seen : List String) : List String → List String
  | [] => []
  | x :: xs =>
    let k := pyStrip (pyLower x)
    if k ∈ seen then dedupGo seen xs
    else x :: dedupGo (k :: seen) xs

/-- `dedup` of `_merge`, starting from an empty seen set. -/
def dedup (l : List String) : List String := dedupGo [] l

/-- The multi-result branch of `GeminiAIService._merge` (the returned dict for
`len(results) != 1`, on a non-empty list). -/
def geminiMergeCore (results : List PartialResult) : PartialResult where
  patient_info :=
    { age := bestStr (results.map (fun r => r.patient_info.age))
      gender := bestStr (results.map (fun r => r.patient_info.gender)) }
  symptoms := dedup (results.map (fun r => r.symptoms)).flatten
  medications := dedup (results.map (fun r => r.medications)).flatten
  procedures := dedup (results.map (fun r => r.procedures)).flatten
  lab_values := dedup (results.map (fun r => r.lab_values)).flatten
  body_parts := dedup (results.map (fun r => r.body_parts)).flatten
  risk_flags := dedup (results.map (fun r => r.risk_flags)).flatten
  clinical_impression := bestStr (results.map (fun r => r.clinical_impression))
  specialty_classification := bestStr (results.map (fun r => r.specialty_classification))
  professional_summary := bestStr (results.map (fun r => r.professional_summary))
  patient_friendly_summary := bestStr (results.map (fun r => r.patient_friendly_summary))
  confidence_score :=
    some (py_round 2
      ((results.map (fun r => r.confidence_score.getD (1 / 2))).sum / results.length))

/-- `GeminiAIService._merge`: a single result is returned unchanged; the empty
list raises `ZeroDivisionError` (modelled `none`) because the confidence mean
divides by `len(results)`; otherwise the merged dict. -/
def gemini_merge : List PartialResult → Option PartialResult
  | [] => none
  | [x] => some x
  | results => some (geminiMergeCore results)

/-! ### `text_chunker.merge_chunk_results` -/

/-- Inner item loop of the list-field merge of `merge_chunk_results`:
`if item and item.lower() not in existing_lower: append item; add its lower`.
`seen` is the `existing_lower` set. -/
def addItemsGo (cur : List String) (seen : List String) : List String → List String
  | [] => cur
  | x :: xs =>
    if x ≠ "" && pyLower x ∉ seen then addItemsGo (cur ++ [x]) (pyLower x :: seen) xs
    else addItemsGo cur seen xs

/-- One list field of one chunk result merged into the accumulated field:
`existing_lower` is rebuilt from the accumulated list, as in the source. -/
def addItems (cur : List String) (items : List String) : List String :=
  addItemsGo cur (cur.map pyLower) items

/-- Accumulator of the `for result in chunk_results` loop of
`merge_chunk_results`: the running merged dict plus the four collected
lists. -/
structure ChunkMergeAcc where
  merged : PartialResult
  valid_scores : List ℚ
  summaries_professional : List String
  summaries_patient : List String
  impressions : List String
deriving Repr

/-- Initial accumulator: the `merged` template dict and empty collections. -/
def chunkMergeInit : ChunkMergeAcc where
  merged := {}
  valid_scores := []
  summaries_professional := []
  summaries_patient := []
  impressions := []

/-- Body of the `for result in chunk_results` loop of `merge_chunk_results`
for one (dict) result. -/
def chunkMergeStep (acc : ChunkMergeAcc) (r : PartialResult) : ChunkMergeAcc :=
  let m := acc.merged
  let m :=
    { m with patient_info.age :=
        if !pyTruthy m.patient_info.age && pyTruthy r.patient_info.age then
          r.patient_info.age
        else m.patient_info.age }
  let m :=
    { m with patient_info.gender :=
        if !pyTruthy m.patient_info.gender && pyTruthy r.patient_info.gender then
          r.patient_info.gender
        else m.patient_info.gender }
  let m :=
    { m with
        symptoms := addItems m.symptoms r.symptoms
        medications := addItems m.medications r.medications
        procedures := addItems m.procedures r.procedures
        lab_values := addItems m.lab_values r.lab_values
        body_parts := addItems m.body_parts r.body_parts
        risk_flags := addItems m.risk_flags r.risk_flags }
  let m :=
    { m with specialty_classification :=
        if !pyTruthy m.specialty_classification && pyTruthy r.specialty_classification then
          r.specialty_classification
        else m.specialty_classification }
  { merged := m
    valid_scores :=
      match r.confidence_score with
      | some v => acc.valid_scores ++ [v]
      | none => acc.valid_scores
    summaries_professional :=
      if pyTruthy r.professional_summary then
        acc.summaries_professional ++ [r.professional_summary.getD ""]
      else acc.summaries_professional
    summaries_patient :=
      if pyTruthy r.patient_friendly_summary then
        acc.summaries_patient ++ [r.patient_friendly_summary.getD ""]
      else acc.summaries_patient
    impressions :=
      if pyTruthy r.clinical_impression then
        acc.impressions ++ [r.clinical_impression.getD ""]
      else acc.impressions }

/-- The multi-result branch of `merge_chunk_results` (`n` is
`len(chunk_results)`, used by the 0.95 multi-chunk penalty). -/
def chunkerMergeCore (results : List PartialResult) : PartialResult :=
  let acc := results.foldl chunkMergeStep chunkMergeInit
  let n := results.length
  { acc.merged with
      clinical_impression :=
        if acc.impressions ≠ [] then some (String.intercalate " | " acc.impressions)
        else none
      professional_summary :=
        if acc.summaries_professional ≠ [] then
          some (String.intercalate " " acc.summaries_professional)
        else none
      patient_friendly_summary :=
        if acc.summaries_patient ≠ [] then
          some (String.intercalate " " acc.summaries_patient)
        else none
      confidence_score :=
        some
          (if acc.valid_scores ≠ [] then
            py_round 3
              (acc.valid_scores.sum / acc.valid_scores.length *
                (if 1 < n then 19 / 20 else 1))
          else 0) }

/-- `text_chunker.merge_chunk_results`: the empty input returns the empty dict
`\x7b\x7d` (modelled `none`: no keys, in particular neither a status nor a
confidence value); a single result is returned unchanged; otherwise the merged
dict. -/
def merge_chunk_results : List PartialResult → Option PartialResult
  | [] => none
  | [x] => some x
  | results => some (chunkerMergeCore results)

/-! ### Definitions following the spec wording (for comparison with the
implementations) -/

/-- Spec §4.3: concatenate "then deduplicate case-insensitively preserving
first-seen order and original casing", for an arbitrary dedup key. -/
def dedupKeyed (key : String → String) : List String → List String
  | [] => []
  | x :: xs => x :: dedupKeyed key (xs.filter (fun y => key y ≠ key x))
termination_by l => l.length
decreasing_by
  simp only [List.length_cons]
  have := List.length_filter_le (fun y => key y ≠ key x) xs
  omega

/-- Spec §4.3: "arithmetic mean of all present per-chunk scores" — the scores
that are present, absent ones contributing nothing. -/
def specPresentScores (results : List PartialResult) : List ℚ :=
  results.filterMap (fun r => r.confidence_score)

/-- Spec §4.3 confidence: mean of present scores, rounded to `nd` decimals,
no multi-chunk penalty. -/
def specMeanConfidence (nd : Nat) (results : List PartialResult) : ℚ :=
  py_round nd ((specPresentScores results).sum / (specPresentScores results).length)

/-! ### Fingerprint (`_Cache.make_key`)

`make_key(text) = hashlib.sha256(text.encode()).hexdigest()`.  The SHA-256
digest is modelled as an injective hex encoding of the text's code points
(six hex digits per character): the property the pipeline relies on is that
the digest is a function of exactly the raw text and is collision-free, which
is the standard idealization of a cryptographic hash. -/

/-- Hex digit character for `n % 16`. -/
def hexDigit (n : Nat) : Char :=
  if n < 10 then Char.ofNat ('0'.toNat + n % 16)
  else Char.ofNat ('a'.toNat + (n % 16 - 10))

/-- Fixed-width (6 hex digits, most significant first) encoding of one
character's code point (`< 0x110000 < 16^6`). -/
def encChar (c : Char) : List Char :=
  [hexDigit (c.toNat / 16 ^ 5), hexDigit (c.toNat / 16 ^ 4 % 16),
   hexDigit (c.toNat / 16 ^ 3 % 16), hexDigit (c.toNat / 16 ^ 2 % 16),
   hexDigit (c.toNat / 16 % 16), hexDigit (c.toNat % 16)]

/-- `_Cache.make_key`: the content digest of the exact text. -/
def make_key (text : List Char) : List Char := text.flatMap encChar

/-- Value of a hex digit character produced by `hexDigit`. -/
def hexVal (c : Char) : Nat :=
  if 'a'.toNat ≤ c.toNat then c.toNat - 'a'.toNat + 10 else c.toNat - '0'.toNat

/-- Decoder for one `encChar` block (used to prove the digest injective). -/
def decChar (l : List Char) : Nat :=
  match l with
  | [d5, d4, d3, d2, d1, d0] =>
      hexVal d5 * 16 ^ 5 + hexVal d4 * 16 ^ 4 + hexVal d3 * 16 ^ 3 +
        hexVal d2 * 16 ^ 2 + hexVal d1 * 16 + hexVal d0
  | _ => 0

/-! ### `file_handler.normalize_text` -/

/-- The control characters removed by
`re.sub(r'[\x00-\x08\x0B\x0C\x0E-\x1F\x7F]', '', ·)`. -/
def isCtl (c : Char) : Bool :=
  (c.toNat ≤ 0x08) || c.toNat = 0x0B || c.toNat = 0x0C ||
  (0x0E ≤ c.toNat && c.toNat ≤ 0x1F) || c.toNat = 0x7F

/-- `text.replace('\r\n', '\n').replace('\r', '\n')`. -/
def normEol : List Char → List Char
  | [] => []
  | '\r' :: '\n' :: cs => '\n' :: normEol cs
  | '\r' :: cs => '\n' :: normEol cs
  | c :: cs => c :: normEol cs

/-- Scan of `re.sub(r'\n{3,}', '\n\n', ·)`: at the first newline of a run
the whole run's replacement is emitted and the remaining `k` run characters
are consumed by counter. -/
def collapseNlGo : Nat → List Char → List Char
  | k + 1, _ :: cs => collapseNlGo k cs
  | _, [] => []
  | 0, c :: cs =>
    if c = '\n' then
      (if 3 ≤ (cs.takeWhile (fun x => x = '\n')).length + 1 then ['\n', '\n']
       else c :: cs.takeWhile (fun x => x = '\n')) ++
        collapseNlGo (cs.takeWhile (fun x => x = '\n')).length cs
    else c :: collapseNlGo 0 cs

/-- `re.sub(r'\n{3,}', '\n\n', ·)`: runs of three or more newlines become
two; shorter runs are kept. -/
def collapseNl (l : List Char) : List Char := collapseNlGo 0 l

/-- Space or tab (the class `[ \t]`). -/
def isSpTab (c : Char) : Bool := c = ' ' || c = '\t'

/-- Scan of `re.sub(r'[ \t]{2,}', ' ', ·)`: at the first space/tab of a run
the run's replacement is emitted and the remaining `k` run characters are
consumed by counter. -/
def collapseSpTabGo : Nat → List Char → List Char
  | k + 1, _ :: cs => collapseSpTabGo k cs
  | _, [] => []
  | 0, c :: cs =>
    if isSpTab c then
      (if 2 ≤ (cs.takeWhile isSpTab).length + 1 then [' '] else [c]) ++
        collapseSpTabGo (cs.takeWhile isSpTab).length cs
    else c :: collapseSpTabGo 0 cs

/-- `re.sub(r'[ \t]{2,}', ' ', ·)`: runs of two or more spaces/tabs become a
single space; a lone space or tab is kept as is. -/
def collapseSpTab (l : List Char) : List Char := collapseSpTabGo 0 l

/-- `file_handler.normalize_text`: drop control characters, normalize line
endings, collapse ≥3 newlines to two and runs of spaces/tabs to one space,
then strip.  Single newlines and single tabs survive — this is not a full
whitespace collapse. -/
def normalize_text (text : List Char) : List Char :=
  strip (collapseSpTab (collapseNl (normEol (text.filter (fun c => !isCtl c)))))

/-! ### The in-memory cache (`_Cache`) -/

/-- One stored entry: key, value, insertion timestamp (`self._store` maps the
key to `(value, ts)`; the list order is dict insertion order). -/
abbrev CacheStore (α : Type) : Type := List (List Char × α × ℚ)

/-- `_Cache.get`: look the key up; a fresh entry is returned, an expired one
is deleted (lazy TTL expiry); returns the read result and the store after the
read. -/
def cacheGet (ttl : ℚ) (store : CacheStore α) (key : List Char) (now : ℚ) :
    Option α × CacheStore α :=
  match store.find? (fun e => e.1 = key) with
  | none => (none, store)
  | some e =>
    if now - e.2.2 < ttl then (some e.2.1, store)
    else (none, store.eraseP (fun e => e.1 = key))

/-- Timestamp of a stored entry. -/
def entryTs (e : List Char × α × ℚ) : ℚ := e.2.2

/-- Remove the first entry carrying the given timestamp (Python `min` over
the dict returns the first key attaining the minimal timestamp; `del`
removes it). -/
def dropFirstTs (t : ℚ) : CacheStore α → CacheStore α
  | [] => []
  | e :: es => if entryTs e = t then es else e :: dropFirstTs t es

/-- `min(self._store, key=lambda k: self._store[k][1])` followed by `del`:
evict the first entry with the minimal insertion timestamp. -/
def evictOldest (store : CacheStore α) : CacheStore α :=
  match store with
  | [] => []
  | e :: es => dropFirstTs ((es.map entryTs).foldl min (entryTs e)) (e :: es)

/-- Dict assignment `self._store[key] = (value, now)`: overwrite in place if
the key exists (keeping its position), else append. -/
def setEntry (store : CacheStore α) (key : List Char) (v : α) (now : ℚ) :
    CacheStore α :=
  if store.any (fun e => e.1 = key) then
    store.map (fun e => if e.1 = key then (key, v, now) else e)
  else store ++ [(key, v, now)]

/-- `_Cache.set`: if the store already holds at least `max_size` entries the
oldest-inserted entry is evicted (regardless of whether the key is already
present), then the key is written. -/
def cacheSet (maxSize : Nat) (store : CacheStore α) (key : List Char) (v : α)
    (now : ℚ) : CacheStore α :=
  setEntry (if maxSize ≤ store.length then evictOldest store else store) key v now

/-! ### Rate limiter (`RateLimitMiddleware.dispatch`) -/

/-- One admission check of `dispatch` for a single client window (the deque
of that client's timestamps): prune timestamps older than
`now - window_seconds` from the front, then either reject — returning
`int(window[0] + window_seconds - now + 1)` (the value is ≥ 1 here, where
`int` truncation coincides with the floor) and leaving the window unchanged —
or accept and append `now`.  `headD 0` reads `window[0]`, reachable only with
a non-empty window when `max_requests ≥ 1`. -/
def rateCheck (maxRequests : Nat) (windowSeconds : ℚ) (window : List ℚ)
    (now : ℚ) : Option ℤ × List ℚ :=
  let pruned := window.dropWhile (fun t => t < now - windowSeconds)
  if maxRequests ≤ pruned.length then
    (some ⌊pruned.headD 0 + windowSeconds - now + 1⌋, pruned)
  else (none, pruned ++ [now])

/-- Run a sequence of admission checks at the given times, returning the
answers in order (`none` = accepted, `some r` = rejected with
`retry_after_seconds = r`). -/
def rateRun (maxRequests : Nat) (windowSeconds : ℚ) (window : List ℚ) :
    List ℚ → List (Option ℤ)
  | [] => []
  | t :: ts =>
    let r := rateCheck maxRequests windowSeconds window t
    r.1 :: rateRun maxRequests windowSeconds r.2 ts

/-! ### `GeminiAIService.analyze_text` -/

/-- The caller-facing result of `analyze_text`: the merged extraction plus
the `status`, `error` and `cached` keys that `analyze_text` adds. -/
structure AnalyzeOut where
  base : PartialResult
  status : String
  error : Option String
  cached : Bool
deriving DecidableEq, Repr

/-- The dict returned by `analyze_text` when every chunk failed: status
`failed`, the generic retry-later message, empty/default fields, confidence
0.0, not cached. -/
def failedAnalyzeOut : AnalyzeOut where
  base := { confidence_score := some 0 }
  status := "failed"
  error := some "AI analysis failed. Please try again later."
  cached := false

/-- The merge stage of `analyze_text` (lines 250–264): zero successes yield
the failed dict; otherwise `_merge` (single result unchanged, several results
merged) tagged with `status="success"`, `error=None`, `cached=False`. -/
def mergeStage (results : List PartialResult) : AnalyzeOut :=
  match results with
  | [] => failedAnalyzeOut
  | r :: rs =>
    { base := if rs = [] then r else geminiMergeCore (r :: rs)
      status := "success"
      error := none
      cached := false }

/-- `GeminiAIService.analyze_text`.  The generation capability is an oracle
giving the outcome of the `_call_gemini` attempt pair for the `i`-th chunk
(`none` = the chunk failed after exhausting its retries).  Returns the
result dict and the cache store afterwards.  A cache hit returns the stored
dict with `cached := true`; on a miss the text is chunked with the
service-local chunker (budget 6000), failed chunks are dropped, and only a
successful merge is written back to the cache (`max_size = 100`,
`ttl = 3600`). -/
def analyze_text (store : CacheStore AnalyzeOut) (text : List Char)
    (oracle : Nat → List Char → Option PartialResult) (now : ℚ) :
    AnalyzeOut × CacheStore AnalyzeOut :=
  let key := make_key text
  match cacheGet 3600 store key now with
  | (some c, store1) => ({ c with cached := true }, store1)
  | (none, store1) =>
    let chunks := gemini_chunk_text text 6000
    let results := (chunks.enum.map (fun e => oracle e.1 e.2)).filterMap id
    if results = [] then (failedAnalyzeOut, store1)
    else
      let merged := mergeStage results
      (merged, cacheSet 100 store1 key merged now)

/-! ### Lemmas about splitting into words -/

theorem splitWsPieces_nil : splitWsPieces [] = [[]] := rfl

theorem splitWsPieces_cons (c : Char) (cs : List Char) :
    splitWsPieces (c :: cs) = wsStep c (splitWsPieces cs) := rfl

theorem splitWsPieces_ne_nil (l : List Char) : splitWsPieces l ≠ [] := by
  induction l with
  | nil => simp [splitWsPieces_nil]
  | cons c cs ih =>
    rw [splitWsPieces_cons]
    unfold wsStep
    split
    · simp
    · match h : splitWsPieces cs with
      | [] => simp
      | w :: ws => simp

/-- Folding more characters on top of a split whose first fragment is empty
only touches the part in front of the tail `P`. -/
theorem foldr_wsStep_append (a : List Char) (P : List (List Char)) :
    a.foldr wsStep ([] :: P) = splitWsPieces a ++ P := by
  induction a with
  | nil => simp [splitWsPieces_nil]
  | cons c cs ih =>
    simp only [List.foldr_cons, ih]
    rw [splitWsPieces_cons]
    unfold wsStep
    split
    · simp
    · match h : splitWsPieces cs with
      | [] => exact absurd h (splitWsPieces_ne_nil cs)
      | w :: ws => simp

/-- Splitting around an interior whitespace character concatenates the two
splits. -/
theorem splitWsPieces_append_ws (a b : List Char) (c : Char) (hc : isWs c) :
    splitWsPieces (a ++ c :: b) = splitWsPieces a ++ splitWsPieces b := by
  have : splitWsPieces (a ++ c :: b) = a.foldr wsStep (wsStep c (splitWsPieces b)) := by
    simp [splitWsPieces, List.foldr_append]
  have h2 : wsStep c (splitWsPieces b) = [] :: splitWsPieces b := by
    unfold wsStep
    rw [if_pos hc]
  rw [this, h2, foldr_wsStep_append]

theorem wordsOf_nil : wordsOf [] = [] := rfl

/-- Words of a concatenation around a whitespace character. -/
theorem wordsOf_append_ws (a b : List Char) (c : Char) (hc : isWs c) :
    wordsOf (a ++ c :: b) = wordsOf a ++ wordsOf b := by
  unfold wordsOf
  rw [splitWsPieces_append_ws a b c hc, List.filter_append]

/-- All fragments of the split of an all-whitespace string are empty. -/
theorem splitWsPieces_all_ws (l : List Char) (h : ∀ c ∈ l, isWs c) :
    ∀ p ∈ splitWsPieces l, p = [] := by
  induction l with
  | nil => simp [splitWsPieces_nil]
  | cons c cs ih =>
    rw [splitWsPieces_cons]
    unfold wsStep
    rw [if_pos (h c (by simp))]
    intro p hp
    rcases List.mem_cons.mp hp with h1 | h1
    · exact h1
    · exact ih (fun x hx => h x (by simp [hx])) p h1

/-- An all-whitespace string has no words. -/
theorem wordsOf_all_ws (l : List Char) (h : ∀ c ∈ l, isWs c) :
    wordsOf l = [] := by
  unfold wordsOf
  rw [List.filter_eq_nil_iff]
  intro p hp
  simpa using splitWsPieces_all_ws l h p hp

/-- An all-whitespace prefix does not change the words. -/
theorem wordsOf_ws_front (w l : List Char) (h : ∀ c ∈ w, isWs c) :
    wordsOf (w ++ l) = wordsOf l := by
  induction w with
  | nil => simp
  | cons c cs ih =>
    have hc : isWs c := h c (by simp)
    have : (c :: cs) ++ l = [] ++ c :: (cs ++ l) := by simp
    rw [this, wordsOf_append_ws [] (cs ++ l) c hc, ih (fun x hx => h x (by simp [hx]))]
    simp [wordsOf_nil]

/-- An all-whitespace suffix does not change the words. -/
theorem wordsOf_ws_suffix (l w : List Char) (h : ∀ c ∈ w, isWs c) :
    wordsOf (l ++ w) = wordsOf l := by
  cases w with
  | nil => simp
  | cons c cs =>
    have hc : isWs c := h c (by simp)
    rw [wordsOf_append_ws l cs c hc, wordsOf_all_ws cs (fun x hx => h x (by simp [hx]))]
    simp

/-- Characters removed by `lstrip` are whitespace, and `lstrip` is a
suffix. -/
theorem lstrip_decomp (l : List Char) :
    ∃ w, (∀ c ∈ w, isWs c) ∧ l = w ++ lstrip l := by
  refine ⟨l.takeWhile isWs, ?_, ?_⟩
  · intro c hc; exact List.mem_takeWhile_imp hc
  · exact (List.takeWhile_append_dropWhile (p := isWs) (l := l)).symm

/-- Characters removed by `rstrip` are whitespace, and `rstrip` is a
prefix. -/
theorem rstrip_decomp (l : List Char) :
    ∃ w, (∀ c ∈ w, isWs c) ∧ l = rstrip l ++ w := by
  refine ⟨(l.reverse.takeWhile isWs).reverse, ?_, ?_⟩
  · intro c hc
    rw [List.mem_reverse] at hc
    exact List.mem_takeWhile_imp hc
  · show l = (l.reverse.dropWhile isWs).reverse ++ (l.reverse.takeWhile isWs).reverse
    rw [← List.reverse_append, List.takeWhile_append_dropWhile, List.reverse_reverse]

/-- Stripping does not change the words. -/
theorem wordsOf_strip (l : List Char) : wordsOf (strip l) = wordsOf l := by
  obtain ⟨w1, hw1, he1⟩ := lstrip_decomp l
  obtain ⟨w2, hw2, he2⟩ := rstrip_decomp (lstrip l)
  calc wordsOf (strip l) = wordsOf (rstrip (lstrip l)) := rfl
    _ = wordsOf (rstrip (lstrip l) ++ w2) := (wordsOf_ws_suffix _ w2 hw2).symm
    _ = wordsOf (lstrip l) := by rw [← he2]
    _ = wordsOf (w1 ++ lstrip l) := (wordsOf_ws_front w1 _ hw1).symm
    _ = wordsOf l := by rw [← he1]

/-- The split of an all-non-whitespace string is that single fragment. -/
theorem splitWsPieces_no_ws (l : List Char) (h : ∀ c ∈ l, ¬ isWs c) :
    splitWsPieces l = [l] := by
  induction l with
  | nil => simp [splitWsPieces_nil]
  | cons c cs ih =>
    rw [splitWsPieces_cons]
    unfold wsStep
    rw [if_neg (by simpa using h c (by simp)), ih (fun x hx => h x (by simp [hx]))]

/-- A non-empty whitespace-free string is a single word. -/
theorem wordsOf_single (l : List Char) (hne : l ≠ []) (h : ∀ c ∈ l, ¬ isWs c) :
    wordsOf l = [l] := by
  unfold wordsOf
  rw [splitWsPieces_no_ws l h]
  simp [hne]

/-- Every fragment of the split is whitespace-free. -/
theorem splitWsPieces_mem_no_ws (l : List Char) :
    ∀ p ∈ splitWsPieces l, ∀ c ∈ p, ¬ isWs c := by
  induction l with
  | nil => simp [splitWsPieces_nil]
  | cons c cs ih =>
    rw [splitWsPieces_cons]
    unfold wsStep
    split
    · intro p hp
      rcases List.mem_cons.mp hp with h1 | h1
      · subst h1; simp
      · exact ih p h1
    · next hcw =>
      match h : splitWsPieces cs with
      | [] => exact absurd h (splitWsPieces_ne_nil cs)
      | w :: ws =>
        intro p hp
        rcases List.mem_cons.mp hp with h1 | h1
        · subst h1
          intro x hx
          rcases List.mem_cons.mp hx with h2 | h2
          · subst h2; simpa using hcw
          · exact ih w (by simp [h]) x h2
        · exact ih p (by simp [h, h1])

/-- Every word is non-empty and whitespace-free. -/
theorem mem_wordsOf (l w : List Char) (hw : w ∈ wordsOf l) :
    w ≠ [] ∧ ∀ c ∈ w, ¬ isWs c := by
  unfold wordsOf at hw
  have h1 := List.of_mem_filter hw
  have h2 := List.mem_of_mem_filter hw
  exact ⟨by simpa using h1, splitWsPieces_mem_no_ws l w h2⟩

/-- Flattening the split recovers exactly the non-whitespace characters. -/
theorem flatten_splitWsPieces (l : List Char) :
    (splitWsPieces l).flatten = l.filter (fun c => ¬ isWs c) := by
  induction l with
  | nil => simp [splitWsPieces_nil]
  | cons c cs ih =>
    rw [splitWsPieces_cons]
    unfold wsStep
    split
    · next hc => simp [List.filter_cons, hc, ih]
    · next hc =>
      match h : splitWsPieces cs with
      | [] => exact absurd h (splitWsPieces_ne_nil cs)
      | w :: ws =>
        rw [h] at ih
        simp only [List.flatten_cons, List.filter_cons]
        simp only [List.flatten_cons] at ih
        simp only [decide_not, Bool.decide_coe] at ih ⊢
        simp [hc, ← ih]

/-- Dropping empty fragments does not change the flattening. -/
theorem flatten_filter_ne_nil (P : List (List Char)) :
    (P.filter (fun w => w ≠ [])).flatten = P.flatten := by
  induction P with
  | nil => simp
  | cons p ps ih =>
    rw [List.filter_cons]
    split
    · rw [List.flatten_cons, List.flatten_cons, ih]
    · next h =>
      have hp : p = [] := by simpa using h
      subst hp
      simpa using ih

/-- A string containing a non-whitespace character has at least one word. -/
theorem wordsOf_ne_nil (l : List Char) (c : Char) (hc : c ∈ l)
    (hnw : ¬ isWs c) : wordsOf l ≠ [] := by
  intro h
  have h1 : (wordsOf l).flatten = l.filter (fun c => ¬ isWs c) := by
    unfold wordsOf
    rw [flatten_filter_ne_nil, flatten_splitWsPieces]
  rw [h] at h1
  have : c ∈ l.filter (fun c => ¬ isWs c) := by
    rw [List.mem_filter]
    exact ⟨hc, by simpa using hnw⟩
  rw [← h1] at this
  simp at this

/-! ### Chunk boundedness (claim C5) -/

theorem rstrip_length_le (l : List Char) : (rstrip l).length ≤ l.length := by
  unfold rstrip
  rw [List.length_reverse]
  calc (l.reverse.dropWhile isWs).length ≤ l.reverse.length :=
        length_dropWhile_le isWs l.reverse
    _ = l.length := List.length_reverse l

theorem strip_length_le (l : List Char) : (strip l).length ≤ l.length := by
  unfold strip lstrip
  calc (rstrip (l.dropWhile isWs)).length ≤ (l.dropWhile isWs).length :=
        rstrip_length_le _
    _ ≤ l.length := length_dropWhile_le isWs l

/-- A chunk is within budget, or it is a single word (it contains no
whitespace at all) that was passed through whole. -/
def chunkOk (N : Nat) (c : List Char) : Prop :=
  c.length ≤ N ∨ ∀ ch ∈ c, ¬ isWs ch

/-- The word loop of `chunk_text` keeps every emitted chunk and its
accumulator within budget or whitespace-free. -/
theorem wordLoop_ok (N : Nat) (ws : List (List Char)) (chunks : List (List Char))
    (wc : List Char) (hch : ∀ c ∈ chunks, chunkOk N c) (hwc : chunkOk N wc)
    (hws : ∀ w ∈ ws, ∀ ch ∈ w, ¬ isWs ch) :
    (∀ c ∈ (wordLoop N chunks wc ws).1, chunkOk N c) ∧
      chunkOk N (wordLoop N chunks wc ws).2 := by
  induction ws generalizing chunks wc with
  | nil => exact ⟨hch, hwc⟩
  | cons w tail ih =>
    rw [wordLoop]
    split
    · next hle =>
      refine ih chunks _ hch (Or.inl ?_) (fun x hx => hws x (by simp [hx]))
      calc (strip (wc ++ ' ' :: w)).length ≤ (wc ++ ' ' :: w).length :=
            strip_length_le _
        _ ≤ N := hle
    · refine ih _ w ?_ (Or.inr (hws w (by simp))) (fun x hx => hws x (by simp [hx]))
      intro c hc
      unfold appendCur at hc
      split at hc
      · rcases List.mem_append.mp hc with h1 | h1
        · exact hch c h1
        · rw [List.mem_singleton.mp h1]; exact hwc
      · exact hch c hc

/-- The sentence loop of `chunk_text` keeps every chunk within budget or
whitespace-free. -/
theorem chunkLoop_ok (N : Nat) (ss : List (List Char)) (chunks : List (List Char))
    (cur : List Char) (hch : ∀ c ∈ chunks, chunkOk N c) (hcur : chunkOk N cur) :
    ∀ c ∈ chunkLoop N chunks cur ss, chunkOk N c := by
  induction ss generalizing chunks cur with
  | nil =>
    intro c hc
    rw [chunkLoop] at hc
    unfold appendCur at hc
    split at hc
    · rcases List.mem_append.mp hc with h1 | h1
      · exact hch c h1
      · rw [List.mem_singleton.mp h1]; exact hcur
    · exact hch c hc
  | cons s tail ih =>
    rw [chunkLoop]
    have hch1 : ∀ c ∈ appendCur chunks cur, chunkOk N c := by
      intro c hc
      unfold appendCur at hc
      split at hc
      · rcases List.mem_append.mp hc with h1 | h1
        · exact hch c h1
        · rw [List.mem_singleton.mp h1]; exact hcur
      · exact hch c hc
    split
    · next hle => exact ih chunks _ hch (Or.inl hle)
    · next hgt =>
      split
      · next hlong =>
        have hws : ∀ w ∈ wordsOf s, ∀ ch ∈ w, ¬ isWs ch := fun w hw =>
          (mem_wordsOf s w hw).2
        have hwl := wordLoop_ok N (wordsOf s) (appendCur chunks cur) [] hch1
          (Or.inl (by simp)) hws
        refine ih _ _ hwl.1 ?_
        split
        · exact hwl.2
        · exact hcur
      · next hshort => exact ih _ s hch1 (Or.inl (by omega))

/-- The whitespace-collapsing scan only ever shortens a text. -/
theorem collapseRunsGo_length_le (b : Bool) (l : List Char) :
    (collapseRunsGo b l).length ≤ l.length := by
  induction l generalizing b with
  | nil => simp [collapseRunsGo]
  | cons c cs ih =>
    rw [collapseRunsGo]
    split
    · split
      · exact (ih true).trans (by simp)
      · simpa using ih true
    · simpa using ih false

/-- `normWs`'s collapse only ever shortens a text. -/
theorem collapseRuns_length_le (l : List Char) :
    (collapseRuns l).length ≤ l.length :=
  collapseRunsGo_length_le false l


/-- C5 counterexample: the service-local chunker `_chunk_text` does NOT hard
split an over-budget multi-word sentence: with budget 4, the single sentence
`aa bb cc` (8 characters, containing whitespace) is emitted whole as one
chunk, so the claim that an over-budget multi-word sentence is never emitted
whole is false for the service chunker cited by the claim. -/
theorem C5_counterexample :
    gemini_chunk_text "aa bb cc".data 4 = ["aa bb cc".data] ∧
    4 < ("aa bb cc".data).length ∧ ' ' ∈ "aa bb cc".data := by
  refine ⟨by decide, by decide, by decide⟩

/-- C5 (amended): every chunk returned by `text_chunker.chunk_text` has
length ≤ N or contains no whitespace at all — the only over-budget chunks are
single words passed through whole, so an over-budget multi-word sentence is
always hard-split.  (The service-local `_chunk_text`, by contrast, emits
over-budget multi-word sentences whole — see the counterexample.) -/
theorem C5_chunk_text_bounded (text : List Char) (N : Nat) :
    ∀ c ∈ chunk_text text N, c.length ≤ N ∨ ∀ ch ∈ c, ¬ isWs ch := by
  intro c hc
  unfold chunk_text at hc
  split at hc
  · next h =>
    rw [List.mem_singleton.mp hc]
    exact Or.inl h
  · exact chunkLoop_ok N _ [] [] (by simp) (Or.inl (by simp)) c hc

/-- C5 witness: the bound theorem applied to a concrete two-sentence text. -/
theorem C5_witness :
    "One two three.".data ∈ chunk_text "One two three. Four five six!".data 16 ∧
    ("One two three.".data.length ≤ 16 ∨ ∀ ch ∈ "One two three.".data, ¬ isWs ch) :=
  ⟨by decide,
    C5_chunk_text_bounded "One two three. Four five six!".data 16
      "One two three.".data (by decide)⟩

/-! ### Words preservation through the chunk loops (claim C6) -/

theorem dropWhile_head_not (p : α → Bool) (l : List α) (c : α) (rest : List α)
    (h : l.dropWhile p = c :: rest) : ¬ p c := by
  induction l with
  | nil => simp at h
  | cons x xs ih =>
    rw [List.dropWhile_cons] at h
    split at h
    · exact ih h
    · next hx =>
      injection h with h1 _
      subst h1
      simpa using hx

theorem strip_head_not_ws (t : List Char) (c : Char) (rest : List Char)
    (h : strip t = c :: rest) : ¬ isWs c := by
  obtain ⟨w, hw, he⟩ := rstrip_decomp (lstrip t)
  rw [strip] at h
  rw [h] at he
  exact dropWhile_head_not isWs t c (rest ++ w) (by simpa using he)

/-- A list containing a non-whitespace character strips to a non-empty
list. -/
theorem strip_ne_nil (l : List Char) (c : Char) (hc : c ∈ l) (hnw : ¬ isWs c) :
    strip l ≠ [] := by
  intro h
  have h1 := wordsOf_strip l
  rw [h] at h1
  exact wordsOf_ne_nil l c hc hnw h1.symm

/-- A non-empty whitespace-normalized text contains a non-whitespace
character. -/
theorem normWs_has_nonws (t : List Char) (h : normWs t ≠ []) :
    ∃ c ∈ normWs t, ¬ isWs c := by
  unfold normWs at *
  match hs : strip t with
  | [] => rw [hs] at h; simp [collapseRuns, collapseRunsGo] at h
  | c :: rest =>
    have hc : ¬ isWs c := strip_head_not_ws t c rest hs
    have hcr : collapseRuns (c :: rest) = c :: collapseRunsGo false rest := by
      simp only [collapseRuns, collapseRunsGo]
      rw [if_neg (by simpa using hc)]
    rw [hcr]
    exact ⟨c, by simp, hc⟩

/-- The words of the chunks appended by `appendCur`. -/
theorem flatWords_appendCur (chunks : List (List Char)) (cur : List Char) :
    ((appendCur chunks cur).map wordsOf).flatten =
      (chunks.map wordsOf).flatten ++ wordsOf cur := by
  unfold appendCur
  split
  · simp
  · next h =>
    have : cur = [] := by simpa using h
    subst this
    simp [wordsOf_nil]

/-- Words preservation through the word loop: the words of the emitted chunks
plus those of the final accumulator are the incoming words followed by the
loop's input words, in order. -/
theorem wordLoop_words (N : Nat) (ws : List (List Char))
    (chunks : List (List Char)) (wc : List Char)
    (hws : ∀ w ∈ ws, w ≠ [] ∧ ∀ c ∈ w, ¬ isWs c) :
    ((wordLoop N chunks wc ws).1.map wordsOf).flatten ++
        wordsOf (wordLoop N chunks wc ws).2 =
      ((chunks.map wordsOf).flatten ++ wordsOf wc) ++ ws := by
  induction ws generalizing chunks wc with
  | nil => simp [wordLoop]
  | cons w tail ih =>
    obtain ⟨hwne, hwnw⟩ := hws w (by simp)
    rw [wordLoop]
    split
    · rw [ih _ _ (fun x hx => hws x (by simp [hx]))]
      rw [wordsOf_strip, wordsOf_append_ws wc w ' ' (by decide),
        wordsOf_single w hwne hwnw]
      simp [List.append_assoc]
    · rw [ih _ _ (fun x hx => hws x (by simp [hx])),
        wordsOf_single w hwne hwnw, flatWords_appendCur]
      simp [List.append_assoc]

/-- The word loop leaves a non-empty accumulator whenever it consumed at
least one word. -/
theorem wordLoop_wc_ne (N : Nat) (ws : List (List Char))
    (chunks : List (List Char)) (wc : List Char)
    (hws : ∀ w ∈ ws, w ≠ [] ∧ ∀ c ∈ w, ¬ isWs c) (h : ws ≠ []) :
    (wordLoop N chunks wc ws).2 ≠ [] := by
  induction ws generalizing chunks wc with
  | nil => simp at h
  | cons w tail ih =>
    obtain ⟨hwne, hwnw⟩ := hws w (by simp)
    have hwmem : ∃ c ∈ wc ++ ' ' :: w, ¬ isWs c := by
      match w, hwne with
      | c :: cs, _ => exact ⟨c, by simp, hwnw c (by simp)⟩
    rw [wordLoop]
    by_cases ht : tail = []
    · subst ht
      split
      · rw [wordLoop]
        obtain ⟨c, hc, hcn⟩ := hwmem
        exact strip_ne_nil _ c hc hcn
      · rw [wordLoop]
        exact hwne
    · split <;> exact ih _ _ (fun x hx => hws x (by simp [hx])) ht

/-- Words preservation through the sentence loop of `chunk_text`: the words
of the produced chunks are the incoming words followed by the words of the
sentences, in order.  Each sentence must contain a non-whitespace character
(which `split_into_sentences` guarantees). -/
theorem chunkLoop_words (N : Nat) (ss : List (List Char))
    (chunks : List (List Char)) (cur : List Char)
    (hss : ∀ s ∈ ss, ∃ c ∈ s, ¬ isWs c) :
    ((chunkLoop N chunks cur ss).map wordsOf).flatten =
      ((chunks.map wordsOf).flatten ++ wordsOf cur) ++
        (ss.map wordsOf).flatten := by
  induction ss generalizing chunks cur with
  | nil =>
    rw [chunkLoop, flatWords_appendCur]
    simp
  | cons s tail ih =>
    obtain ⟨cw, hcw, hcwn⟩ := hss s (by simp)
    rw [chunkLoop]
    split
    · rw [ih _ _ (fun x hx => hss x (by simp [hx]))]
      rw [wordsOf_strip, wordsOf_append_ws cur s ' ' (by decide)]
      simp [List.append_assoc]
    · split
      · next hlong =>
        have hws : ∀ w ∈ wordsOf s, w ≠ [] ∧ ∀ c ∈ w, ¬ isWs c :=
          fun w hw => mem_wordsOf s w hw
        have hne : wordsOf s ≠ [] := wordsOf_ne_nil s cw hcw hcwn
        have hwcne := wordLoop_wc_ne N (wordsOf s) (appendCur chunks cur) [] hws hne
        rw [if_pos hwcne]
        rw [ih _ _ (fun x hx => hss x (by simp [hx]))]
        have hwl := wordLoop_words N (wordsOf s) (appendCur chunks cur) [] hws
        rw [flatWords_appendCur] at hwl
        simp only [wordsOf_nil, List.append_nil] at hwl
        rw [hwl]
        simp [List.append_assoc]
      · next hshort =>
        rw [ih _ _ (fun x hx => hss x (by simp [hx])), flatWords_appendCur]
        simp [List.append_assoc]

/-- `appendCur` appends no empty chunk. -/
theorem appendCur_nonempty (chunks : List (List Char)) (cur : List Char)
    (hch : ∀ c ∈ chunks, c ≠ []) : ∀ c ∈ appendCur chunks cur, c ≠ [] := by
  unfold appendCur
  split
  · next h =>
    intro c hc
    rcases List.mem_append.mp hc with h1 | h1
    · exact hch c h1
    · rw [List.mem_singleton.mp h1]; simpa using h
  · exact hch

/-- The word loop emits no empty chunk. -/
theorem wordLoop_nonempty (N : Nat) (ws : List (List Char))
    (chunks : List (List Char)) (wc : List Char)
    (hch : ∀ c ∈ chunks, c ≠ []) :
    ∀ c ∈ (wordLoop N chunks wc ws).1, c ≠ [] := by
  induction ws generalizing chunks wc with
  | nil => exact hch
  | cons w tail ih =>
    rw [wordLoop]
    split
    · exact ih _ _ hch
    · exact ih _ _ (appendCur_nonempty chunks wc hch)

/-- The sentence loop emits no empty chunk. -/
theorem chunkLoop_nonempty (N : Nat) (ss : List (List Char))
    (chunks : List (List Char)) (cur : List Char)
    (hch : ∀ c ∈ chunks, c ≠ []) :
    ∀ c ∈ chunkLoop N chunks cur ss, c ≠ [] := by
  induction ss generalizing chunks cur with
  | nil =>
    rw [chunkLoop]
    exact appendCur_nonempty chunks cur hch
  | cons s tail ih =>
    rw [chunkLoop]
    split
    · exact ih _ _ hch
    · split
      · exact ih _ _ (wordLoop_nonempty N (wordsOf s) _ []
          (appendCur_nonempty chunks cur hch))
      · exact ih _ _ (appendCur_nonempty chunks cur hch)

/-! ### The sentence pipeline keeps non-whitespace content (claim C6) -/

/-- The abbreviation substitution keeps at least one non-whitespace character
(in scan mode; a match emits the marker `<PERIOD>` whose characters are not
whitespace). -/
theorem abbrevSubGo_has_nonws (l : List Char) (b : Bool)
    (h : ∃ c ∈ l, ¬ isWs c) :
    ∃ c ∈ abbrevSubGo (.scan b) l, ¬ isWs c := by
  induction l generalizing b with
  | nil => simp at h
  | cons c cs ih =>
    rw [abbrevSubGo]
    match hm : (if b then none else matchAbbrev (c :: cs)) with
    | some a =>
      refine ⟨'<', ?_, by decide⟩
      simp [PERIODTOK]
    | none =>
      by_cases hcw : isWs c
      · obtain ⟨d, hd, hdn⟩ := h
        rcases List.mem_cons.mp hd with h1 | h1
        · subst h1; exact absurd hcw hdn
        · obtain ⟨e, he, hen⟩ := ih (isWordChar c) ⟨d, h1, hdn⟩
          exact ⟨e, by simp [he], hen⟩
      · exact ⟨c, by simp, hcw⟩

/-- The non-whitespace characters of the sentence-split pieces are exactly
those of the input (the split only drops whitespace runs). -/
theorem splitSentAux_filter_nonws (l : List Char) (prev : Option Char)
    (skip : Bool) :
    ((splitSentAux prev skip l).1 ++ (splitSentAux prev skip l).2.flatten).filter
        (fun c => ¬ isWs c) =
      l.filter (fun c => ¬ isWs c) := by
  induction l generalizing prev skip with
  | nil => simp [splitSentAux]
  | cons c cs ih =>
    rw [splitSentAux]
    split
    · next hc =>
      have hcw : isWs c := by
        rcases Bool.and_eq_true _ _ |>.mp hc with ⟨_, h2⟩
        exact h2
      rw [ih (some c) true, List.filter_cons, if_neg (by simpa using hcw)]
    · split
      · next hc =>
        have hcw : isWs c := by
          rcases Bool.and_eq_true _ _ |>.mp hc with ⟨h1, _⟩
          exact h1
        simp only [List.nil_append, List.flatten_cons]
        rw [ih (some c) true, List.filter_cons, if_neg (by simpa using hcw)]
      · simp only [List.cons_append, List.filter_cons]
        rw [ih (some c) false]

/-- The period restoration keeps at least one non-whitespace character. -/
theorem replTokGo_has_nonws (l : List Char) (h : ∃ c ∈ l, ¬ isWs c) :
    ∃ c ∈ replTokGo 0 l, ¬ isWs c := by
  induction l with
  | nil => simp at h
  | cons c cs ih =>
    rw [replTokGo]
    split
    · exact ⟨'.', by simp, by decide⟩
    · obtain ⟨d, hd, hdn⟩ := h
      rcases List.mem_cons.mp hd with h1 | h1
      · subst h1; exact ⟨d, by simp, hdn⟩
      · by_cases hcw : isWs c
        · obtain ⟨e, he, hen⟩ := ih ⟨d, h1, hdn⟩
          exact ⟨e, by simp [he], hen⟩
        · exact ⟨c, by simp, hcw⟩

/-- Every sentence produced by `split_into_sentences` is non-empty and
contains a non-whitespace character. -/
theorem mem_split_into_sentences (t : List Char) (s : List Char)
    (hs : s ∈ split_into_sentences t) :
    s ≠ [] ∧ ∃ c ∈ s, ¬ isWs c := by
  unfold split_into_sentences at hs
  have h1 := List.of_mem_filter hs
  have h2 := List.mem_of_mem_filter hs
  have hne : s ≠ [] := by simpa using h1
  refine ⟨hne, ?_⟩
  obtain ⟨y, hy, hys⟩ := List.mem_map.mp h2
  subst hys
  match hst : strip y with
  | [] => exact absurd hst hne
  | c :: rest =>
    exact ⟨c, by simp, strip_head_not_ws y c rest hst⟩

/-- Some sentence exists whenever the text contains a non-whitespace
character. -/
theorem split_into_sentences_ne_nil (t : List Char) (c : Char) (hc : c ∈ t)
    (hcn : ¬ isWs c) : split_into_sentences t ≠ [] := by
  obtain ⟨d, hd, hdn⟩ := abbrevSubGo_has_nonws t false ⟨c, hc, hcn⟩
  have hfil := splitSentAux_filter_nonws (abbrevSub t) none false
  have hdmem : d ∈ ((splitSentAux none false (abbrevSub t)).1 ++
      ((splitSentAux none false (abbrevSub t)).2).flatten) := by
    have hdf : d ∈ (abbrevSub t).filter (fun c => ¬ isWs c) :=
      List.mem_filter.mpr ⟨hd, by simpa using hdn⟩
    rw [← hfil] at hdf
    exact List.mem_of_mem_filter hdf
  have hpiece : ∃ p ∈ splitSent (abbrevSub t), d ∈ p := by
    rcases List.mem_append.mp hdmem with h1 | h1
    · exact ⟨_, by rw [splitSent]; exact List.mem_cons_self _ _, h1⟩
    · obtain ⟨p, hp, hdp⟩ := List.mem_flatten.mp h1
      exact ⟨p, by rw [splitSent]; exact List.mem_cons_of_mem _ hp, hdp⟩
  obtain ⟨p, hp, hdp⟩ := hpiece
  obtain ⟨e, he, hen⟩ := replTokGo_has_nonws p ⟨d, hdp, hdn⟩
  have hmem : strip (replTok p) ∈
      ((splitSent (abbrevSub t)).map replTok).map strip :=
    List.mem_map.mpr ⟨replTok p, List.mem_map.mpr ⟨p, hp, rfl⟩, rfl⟩
  have hne : strip (replTok p) ≠ [] := strip_ne_nil (replTok p) e he hen
  unfold split_into_sentences
  intro hnil
  rw [List.filter_eq_nil_iff] at hnil
  exact hnil _ hmem (by simpa using hne)

/-- Spec: "the concatenation of the chunks in order, ignoring inserted
boundaries" — the chunks joined by single spaces (the whitespace dropped at
each boundary). -/
def joinChunks : List (List Char) → List Char
  | [] => []
  | [c] => c
  | c :: cs => c ++ ' ' :: joinChunks cs

/-- C6 counterexample: the claim fails twice on `chunk_text`.  The non-empty
whitespace-only text `" "` produces the single chunk `""`, an empty chunk;
and for `"Dr.X yy"` with budget 3 the sentence splitter inserts a space after
the abbreviation period `Dr.`, so the concatenated chunks (`"Dr. X yy"`) do
not reconstruct the input even up to whitespace normalization. -/
theorem C6_counterexample :
    chunk_text " ".data 5 = [[]] ∧ " ".data ≠ ([] : List Char) ∧
    normWs (joinChunks (chunk_text "Dr.X yy".data 3)) ≠
      normWs "Dr.X yy".data := by
  refine ⟨by decide, by decide, by decide⟩

/-- C6 (amended): for every text and budget, `chunk_text` returns at least
one chunk; every chunk is non-empty provided the whitespace-normalized text
is non-empty (a whitespace-only text yields the single empty chunk); a text
whose normalized form fits the budget is returned exactly as that normalized
form; and otherwise the whitespace-separated words of the chunks, in order,
are exactly the words of the sentences produced by `split_into_sentences` on
the normalized text — reconstruction is relative to the sentence stream,
which can differ from the raw text where the splitter rewrites abbreviation
periods or literal `<PERIOD>` markers. -/
theorem C6_chunk_text_reconstruction (text : List Char) (N : Nat) :
    chunk_text text N ≠ [] ∧
    (normWs text ≠ [] → ∀ c ∈ chunk_text text N, c ≠ []) ∧
    ((normWs text).length ≤ N → chunk_text text N = [normWs text]) ∧
    (N < (normWs text).length →
      ((chunk_text text N).map wordsOf).flatten =
        ((split_into_sentences (normWs text)).map wordsOf).flatten) := by
  have hss : ∀ s ∈ split_into_sentences (normWs text), ∃ c ∈ s, ¬ isWs c :=
    fun s hs => (mem_split_into_sentences (normWs text) s hs).2
  have hwords : N < (normWs text).length →
      ((chunk_text text N).map wordsOf).flatten =
        ((split_into_sentences (normWs text)).map wordsOf).flatten := by
    intro hlen
    unfold chunk_text
    rw [if_neg (by omega)]
    rw [chunkLoop_words N _ [] [] hss]
    simp [wordsOf_nil]
  refine ⟨?_, ?_, ?_, hwords⟩
  · by_cases hlen : (normWs text).length ≤ N
    · unfold chunk_text
      rw [if_pos hlen]
      simp
    · have hlen2 : N < (normWs text).length := by omega
      have ht : normWs text ≠ [] := by
        intro h0
        rw [h0] at hlen2
        simp at hlen2
      obtain ⟨c0, hc0, hc0n⟩ := normWs_has_nonws text ht
      have hsne := split_into_sentences_ne_nil (normWs text) c0 hc0 hc0n
      intro hres
      have hw := hwords hlen2
      rw [hres] at hw
      match hssv : split_into_sentences (normWs text) with
      | [] => exact hsne hssv
      | s :: rest =>
        obtain ⟨cs0, hcs0, hcs0n⟩ := hss s (by rw [hssv]; simp)
        have : wordsOf s ≠ [] := wordsOf_ne_nil s cs0 hcs0 hcs0n
        rw [hssv] at hw
        simp only [List.map_nil, List.flatten_nil, List.map_cons,
          List.flatten_cons] at hw
        rcases List.append_eq_nil.mp hw.symm with ⟨h1, _⟩
        exact this h1
  · intro ht c hc
    unfold chunk_text at hc
    split at hc
    · rw [List.mem_singleton.mp hc]
      exact ht
    · exact chunkLoop_nonempty N _ [] [] (by simp) c hc
  · intro hlen
    unfold chunk_text
    rw [if_pos hlen]

/-- C6 witness: the reconstruction theorem applied to a concrete two-sentence
text over budget and to a concrete text within budget. -/
theorem C6_witness :
    (chunk_text "Aa bb. Cc dd.".data 6 ≠ [] ∧
      (∀ c ∈ chunk_text "Aa bb. Cc dd.".data 6, c ≠ []) ∧
      ((chunk_text "Aa bb. Cc dd.".data 6).map wordsOf).flatten =
        ((split_into_sentences (normWs "Aa bb. Cc dd.".data)).map wordsOf).flatten) ∧
    chunk_text "hi".data 5 = [normWs "hi".data] :=
  ⟨⟨(C6_chunk_text_reconstruction "Aa bb. Cc dd.".data 6).1,
    (C6_chunk_text_reconstruction "Aa bb. Cc dd.".data 6).2.1 (by decide),
    (C6_chunk_text_reconstruction "Aa bb. Cc dd.".data 6).2.2.2 (by decide)⟩,
    (C6_chunk_text_reconstruction "hi".data 5).2.2.1 (by decide)⟩

/-! ### Dedup equivalences (claims C2, C4) -/

/-- The seen-set loop of `_merge`'s `dedup` computes the spec-side keyed
dedup of the items whose key is not yet seen. -/
theorem dedupGo_eq_dedupKeyed (l : List String) (seen : List String) :
    dedupGo seen l =
      dedupKeyed (fun x => pyStrip (pyLower x))
        (l.filter (fun y => pyStrip (pyLower y) ∉ seen)) := by
  induction l generalizing seen with
  | nil => simp [dedupGo, dedupKeyed]
  | cons x xs ih =>
    rw [dedupGo, List.filter_cons]
    split
    · next hk =>
      rw [if_neg (by simpa using hk)]
      exact ih seen
    · next hk =>
      rw [if_pos (by simpa using hk), dedupKeyed, ih (pyStrip (pyLower x) :: seen)]
      congr 1
      rw [List.filter_filter]
      congr 1
      apply List.filter_congr
      intro y _
      by_cases h1 : pyStrip (pyLower y) = pyStrip (pyLower x) <;>
        by_cases h2 : pyStrip (pyLower y) ∈ seen <;>
        simp [h1, h2, List.mem_cons]

/-- `_merge`'s `dedup` is the spec-side dedup with key
`str(x).lower().strip()`. -/
theorem dedup_eq_dedupKeyed (l : List String) :
    dedup l = dedupKeyed (fun x => pyStrip (pyLower x)) l := by
  rw [dedup, dedupGo_eq_dedupKeyed l []]
  congr 1
  apply List.filter_eq_self.mpr
  intro y _
  simp

/-- `addItemsGo` only consults its seen set up to membership. -/
theorem addItemsGo_seen_congr (items : List String) (cur : List String)
    (seen1 seen2 : List String) (h : ∀ x, x ∈ seen1 ↔ x ∈ seen2) :
    addItemsGo cur seen1 items = addItemsGo cur seen2 items := by
  induction items generalizing cur seen1 seen2 with
  | nil => rfl
  | cons x xs ih =>
    rw [addItemsGo, addItemsGo]
    by_cases hx : x ≠ "" ∧ pyLower x ∉ seen1
    · rw [if_pos (by simp [hx.1, hx.2]), if_pos (by simp [hx.1, (h (pyLower x)).not.mp hx.2])]
      refine ih _ _ _ ?_
      intro z
      simp [h z]
    · have hx2 : ¬ (x ≠ "" ∧ pyLower x ∉ seen2) := by
        intro hc
        exact hx ⟨hc.1, fun hm => hc.2 ((h (pyLower x)).mp hm)⟩
      rw [if_neg (by simpa using hx), if_neg (by simpa using hx2)]
      exact ih _ _ _ h

/-- Accumulator decomposition for `addItemsGo`: the already-kept items are a
prefix and do not interact except through the seen set. -/
theorem addItemsGo_acc (items : List String) (cur : List String)
    (seen : List String) :
    addItemsGo cur seen items = cur ++ addItemsGo [] seen items := by
  induction items generalizing cur seen with
  | nil => simp [addItemsGo]
  | cons x xs ih =>
    rw [addItemsGo, addItemsGo]
    split
    · rw [ih (cur ++ [x]), ih ([] ++ [x])]
      simp
    · exact ih cur seen

/-- The empty-accumulator item loop is the spec-side keyed dedup of the
non-empty items whose lowercase is not yet seen. -/
theorem addItemsGo_nil_eq (items : List String) (seen : List String) :
    addItemsGo [] seen items =
      dedupKeyed pyLower
        (items.filter (fun y => decide (y ≠ "") && decide (pyLower y ∉ seen))) := by
  induction items generalizing seen with
  | nil => simp [addItemsGo, dedupKeyed]
  | cons x xs ih =>
    rw [addItemsGo, List.filter_cons]
    split
    · next hx =>
      rw [addItemsGo_acc xs ([] ++ [x]) (pyLower x :: seen), dedupKeyed,
        ih (pyLower x :: seen)]
      simp only [List.nil_append, List.singleton_append, List.cons.injEq, true_and]
      rw [List.filter_filter]
      congr 1
      apply List.filter_congr
      intro y _
      by_cases h1 : pyLower y = pyLower x <;>
        by_cases h2 : pyLower y ∈ seen <;>
        by_cases h3 : y = "" <;>
        simp [h1, h2, h3, List.mem_cons]
    · next hx =>
      exact ih seen

/-- Processing concatenated item lists equals processing them one after the
other, provided `seen` is exactly the lowercase image of the accumulated
list. -/
theorem addItemsGo_append (A B : List String) (cur : List String)
    (seen : List String) (h : ∀ x, x ∈ seen ↔ x ∈ cur.map pyLower) :
    addItemsGo cur seen (A ++ B) =
      addItemsGo (addItemsGo cur seen A)
        ((addItemsGo cur seen A).map pyLower) B := by
  induction A generalizing cur seen with
  | nil => exact addItemsGo_seen_congr B cur seen (cur.map pyLower) h
  | cons x xs ih =>
    rw [List.cons_append, addItemsGo, addItemsGo]
    split
    · refine ih (cur ++ [x]) (pyLower x :: seen) ?_
      intro z
      simp [h z, List.mem_append, or_comm]
    · exact ih cur seen h

/-- `addItems` over a concatenation. -/
theorem addItems_append (cur : List String) (A B : List String) :
    addItems cur (A ++ B) = addItems (addItems cur A) B :=
  addItemsGo_append A B cur (cur.map pyLower) (fun _ => Iff.rfl)

/-- Folding a field across all chunk results equals one pass over the
concatenated items. -/
theorem foldl_addItems (lists : List (List String)) (cur : List String) :
    lists.foldl addItems cur = addItems cur lists.flatten := by
  induction lists generalizing cur with
  | nil => rfl
  | cons A rest ih =>
    rw [List.foldl_cons, ih, List.flatten_cons, addItems_append]

/-- The field merge of `merge_chunk_results` from an empty accumulator is the
spec-side dedup by lowercase of the concatenated non-empty items. -/
theorem addItems_nil (items : List String) :
    addItems [] items =
      dedupKeyed pyLower (items.filter (fun y => y ≠ "")) := by
  rw [addItems]
  simp only [List.map_nil]
  rw [addItemsGo_nil_eq items []]
  congr 1
  apply List.filter_congr
  intro y _
  by_cases h : y = "" <;> simp [h]

/-- The symptoms accumulated by the result loop of `merge_chunk_results`. -/
theorem chunkFold_symptoms (results : List PartialResult) (acc : ChunkMergeAcc) :
    (results.foldl chunkMergeStep acc).merged.symptoms =
      (results.map (fun r => r.symptoms)).foldl addItems acc.merged.symptoms := by
  induction results generalizing acc with
  | nil => rfl
  | cons r rest ih =>
    rw [List.foldl_cons, ih, List.map_cons, List.foldl_cons]
    congr 1

theorem chunkFold_medications (results : List PartialResult) (acc : ChunkMergeAcc) :
    (results.foldl chunkMergeStep acc).merged.medications =
      (results.map (fun r => r.medications)).foldl addItems acc.merged.medications := by
  induction results generalizing acc with
  | nil => rfl
  | cons r rest ih =>
    rw [List.foldl_cons, ih, List.map_cons, List.foldl_cons]
    congr 1

theorem chunkFold_procedures (results : List PartialResult) (acc : ChunkMergeAcc) :
    (results.foldl chunkMergeStep acc).merged.procedures =
      (results.map (fun r => r.procedures)).foldl addItems acc.merged.procedures := by
  induction results generalizing acc with
  | nil => rfl
  | cons r rest ih =>
    rw [List.foldl_cons, ih, List.map_cons, List.foldl_cons]
    congr 1

theorem chunkFold_lab_values (results : List PartialResult) (acc : ChunkMergeAcc) :
    (results.foldl chunkMergeStep acc).merged.lab_values =
      (results.map (fun r => r.lab_values)).foldl addItems acc.merged.lab_values := by
  induction results generalizing acc with
  | nil => rfl
  | cons r rest ih =>
    rw [List.foldl_cons, ih, List.map_cons, List.foldl_cons]
    congr 1

theorem chunkFold_body_parts (results : List PartialResult) (acc : ChunkMergeAcc) :
    (results.foldl chunkMergeStep acc).merged.body_parts =
      (results.map (fun r => r.body_parts)).foldl addItems acc.merged.body_parts := by
  induction results generalizing acc with
  | nil => rfl
  | cons r rest ih =>
    rw [List.foldl_cons, ih, List.map_cons, List.foldl_cons]
    congr 1

theorem chunkFold_risk_flags (results : List PartialResult) (acc : ChunkMergeAcc) :
    (results.foldl chunkMergeStep acc).merged.risk_flags =
      (results.map (fun r => r.risk_flags)).foldl addItems acc.merged.risk_flags := by
  induction results generalizing acc with
  | nil => rfl
  | cons r rest ih =>
    rw [List.foldl_cons, ih, List.map_cons, List.foldl_cons]
    congr 1

/-- The scores collected by the result loop of `merge_chunk_results` are
exactly the present ones, in order. -/
theorem chunkFold_scores (results : List PartialResult) (acc : ChunkMergeAcc) :
    (results.foldl chunkMergeStep acc).valid_scores =
      acc.valid_scores ++ results.filterMap (fun r => r.confidence_score) := by
  induction results generalizing acc with
  | nil => simp
  | cons r rest ih =>
    rw [List.foldl_cons, ih, List.filterMap_cons]
    match h : r.confidence_score with
    | some v => simp [chunkMergeStep, h]
    | none => simp [chunkMergeStep, h]

/-- Closed form of the confidence produced by `merge_chunk_results`: the mean
of the present scores, multiplied by 0.95 when more than one chunk
contributed, rounded to 3 decimals; 0.0 when no score is present. -/
theorem chunkerMergeCore_confidence (results : List PartialResult) :
    (chunkerMergeCore results).confidence_score =
      some
        (if results.filterMap (fun r => r.confidence_score) ≠ [] then
          py_round 3
            ((results.filterMap (fun r => r.confidence_score)).sum /
              ((results.filterMap (fun r => r.confidence_score)).length : ℚ) *
              (if 1 < results.length then 19 / 20 else 1))
        else 0) := by
  have hv := chunkFold_scores results chunkMergeInit
  simp only [chunkerMergeCore]
  rw [hv]
  rfl

/-- C2 counterexample inputs: one chunk result carrying confidence 0.8, one
carrying no confidence at all. -/
def cexScore : PartialResult := { confidence_score := some (4 / 5) }

/-- See `cexScore`: a chunk result without a confidence score. -/
def cexNoScore : PartialResult := {}

/-- C2 counterexample: the merged confidence is NOT the rounded mean of the
present scores.  In `_merge`, an absent score contributes the default 0.5 and
still counts in the denominator: merging scores {0.8, absent} gives
round((0.8+0.5)/2, 2) = 0.65, not 0.8.  In `merge_chunk_results`, the mean of
present scores is multiplied by the 0.95 multi-chunk penalty: merging  
{0.8, 0.8} gives round(0.8*0.95, 3) = 0.76, not 0.8.  (Shown against the
spec-side mean at both announced precisions, 2 and 3 decimals.) -/
theorem C2_counterexample :
    (geminiMergeCore [cexScore, cexNoScore]).confidence_score = some (13 / 20) ∧
    (chunkerMergeCore [cexScore, cexScore]).confidence_score = some (19 / 25) ∧
    specMeanConfidence 2 [cexScore, cexNoScore] = 4 / 5 ∧
    specMeanConfidence 3 [cexScore, cexNoScore] = 4 / 5 ∧
    specMeanConfidence 2 [cexScore, cexScore] = 4 / 5 ∧
    specMeanConfidence 3 [cexScore, cexScore] = 4 / 5 ∧
    ((13 : ℚ) / 20 ≠ 4 / 5) ∧ ((19 : ℚ) / 25 ≠ 4 / 5) := by
  refine ⟨?_, ?_, ?_, ?_, ?_, ?_, by norm_num, by norm_num⟩
  · simp only [geminiMergeCore, List.map_cons, List.map_nil, cexScore, cexNoScore,
      Option.getD_some, Option.getD_none, List.sum_cons, List.sum_nil,
      List.length_cons, List.length_nil, Option.some.injEq]
    norm_num [py_round, roundHalfEven]
  · rw [chunkerMergeCore_confidence]
    simp only [cexScore, List.filterMap_cons, List.filterMap_nil,
      List.length_cons, List.length_nil, List.sum_cons, List.sum_nil,
      Option.some.injEq]
    norm_num [py_round, roundHalfEven]
    simp
  · simp only [specMeanConfidence, specPresentScores, cexScore, cexNoScore,
      List.filterMap_cons, List.filterMap_nil, List.sum_cons, List.sum_nil,
      List.length_cons, List.length_nil]
    norm_num [py_round, roundHalfEven]
  · simp only [specMeanConfidence, specPresentScores, cexScore, cexNoScore,
      List.filterMap_cons, List.filterMap_nil, List.sum_cons, List.sum_nil,
      List.length_cons, List.length_nil]
    norm_num [py_round, roundHalfEven]
  · simp only [specMeanConfidence, specPresentScores, cexScore,
      List.filterMap_cons, List.filterMap_nil, List.sum_cons, List.sum_nil,
      List.length_cons, List.length_nil]
    norm_num [py_round, roundHalfEven]
  · simp only [specMeanConfidence, specPresentScores, cexScore,
      List.filterMap_cons, List.filterMap_nil, List.sum_cons, List.sum_nil,
      List.length_cons, List.length_nil]
    norm_num [py_round, roundHalfEven]

/-- C2 (amended): for two or more chunk results, `GeminiAIService._merge`
sets the merged confidence to `round(Σ score-or-0.5 / n, 2)` — an absent
per-chunk score contributes the default 0.5 and counts in the denominator,
with no multi-chunk penalty; `merge_chunk_results` sets it to the mean of the
present scores multiplied by the 0.95 multi-chunk penalty, rounded to 3
decimals (0.0 if no score is present). -/
theorem C2_confidence_formulas (a b : PartialResult) (rs : List PartialResult) :
    gemini_merge (a :: b :: rs) = some (geminiMergeCore (a :: b :: rs)) ∧
    (geminiMergeCore (a :: b :: rs)).confidence_score =
      some (py_round 2
        (((a :: b :: rs).map (fun r => r.confidence_score.getD (1 / 2))).sum /
          (((a :: b :: rs).length : ℚ)))) ∧
    merge_chunk_results (a :: b :: rs) = some (chunkerMergeCore (a :: b :: rs)) ∧
    (chunkerMergeCore (a :: b :: rs)).confidence_score =
      some
        (if specPresentScores (a :: b :: rs) ≠ [] then
          py_round 3
            ((specPresentScores (a :: b :: rs)).sum /
              ((specPresentScores (a :: b :: rs)).length : ℚ) * (19 / 20))
        else 0) := by
  refine ⟨rfl, rfl, rfl, ?_⟩
  rw [chunkerMergeCore_confidence]
  have h2 : 1 < (a :: b :: rs).length := by
    simp only [List.length_cons]
    omega
  rw [if_pos h2]
  rfl

/-- C4 counterexample inputs: two chunk results whose symptom entries differ
only by surrounding whitespace. -/
def cexFever : PartialResult := { symptoms := ["fever"] }

/-- See `cexFever`: the same symptom with a leading space. -/
def cexFeverSp : PartialResult := { symptoms := [" fever"] }

/-- C4 counterexample: `_merge`'s dedup key is `str(x).lower().strip()`, so
`"fever"` and `" fever"` — distinct under a purely case-insensitive
comparison — collapse to one entry: the merged symptom list is `["fever"]`,
not the case-insensitive dedup `["fever", " fever"]` the claim describes. -/
theorem C4_counterexample :
    (geminiMergeCore [cexFever, cexFeverSp]).symptoms = ["fever"] ∧
    dedupKeyed pyLower
        ((([cexFever, cexFeverSp]).map (fun r => r.symptoms)).flatten) =
      ["fever", " fever"] ∧
    (["fever"] : List String) ≠ ["fever", " fever"] := by
  refine ⟨?_, ?_, by decide⟩
  · show dedup (((([cexFever, cexFeverSp]).map (fun r => r.symptoms))).flatten) = ["fever"]
    have h0 : ((([cexFever, cexFeverSp]).map (fun r => r.symptoms))).flatten =
        ["fever", " fever"] := by decide
    rw [h0]
    show dedupGo [] ["fever", " fever"] = ["fever"]
    rw [dedupGo, if_neg (by decide), dedupGo,
      if_pos (by decide), dedupGo]
  · have h0 : ((([cexFever, cexFeverSp]).map (fun r => r.symptoms))).flatten =
        ["fever", " fever"] := by decide
    rw [h0, dedupKeyed]
    have h1 : List.filter (fun y => pyLower y ≠ pyLower "fever") [" fever"] =
        [" fever"] := by decide
    rw [h1, dedupKeyed]
    have h2 : List.filter (fun y => pyLower y ≠ pyLower " fever") ([] : List String) =
        ([] : List String) := rfl
    rw [h2, dedupKeyed]

/-- C4 (amended): for two or more results, each list-valued field of
`GeminiAIService._merge` is the concatenation of that field across the
results in chunk order, deduplicated by the key `lower().strip()` — i.e.
case-insensitively AND ignoring surrounding whitespace — keeping first-seen
position and original casing; in `merge_chunk_results` the key is plain
`lower()` (case-insensitive only) but empty-string items are dropped. -/
theorem C4_list_fields_dedup (a b : PartialResult) (rs : List PartialResult) :
    gemini_merge (a :: b :: rs) = some (geminiMergeCore (a :: b :: rs)) ∧
    merge_chunk_results (a :: b :: rs) = some (chunkerMergeCore (a :: b :: rs)) ∧
    ((geminiMergeCore (a :: b :: rs)).symptoms =
        dedupKeyed (fun x => pyStrip (pyLower x))
          (((a :: b :: rs).map (fun r => r.symptoms)).flatten) ∧
      (geminiMergeCore (a :: b :: rs)).medications =
        dedupKeyed (fun x => pyStrip (pyLower x))
          (((a :: b :: rs).map (fun r => r.medications)).flatten) ∧
      (geminiMergeCore (a :: b :: rs)).procedures =
        dedupKeyed (fun x => pyStrip (pyLower x))
          (((a :: b :: rs).map (fun r => r.procedures)).flatten) ∧
      (geminiMergeCore (a :: b :: rs)).lab_values =
        dedupKeyed (fun x => pyStrip (pyLower x))
          (((a :: b :: rs).map (fun r => r.lab_values)).flatten) ∧
      (geminiMergeCore (a :: b :: rs)).body_parts =
        dedupKeyed (fun x => pyStrip (pyLower x))
          (((a :: b :: rs).map (fun r => r.body_parts)).flatten) ∧
      (geminiMergeCore (a :: b :: rs)).risk_flags =
        dedupKeyed (fun x => pyStrip (pyLower x))
          (((a :: b :: rs).map (fun r => r.risk_flags)).flatten)) ∧
    ((chunkerMergeCore (a :: b :: rs)).symptoms =
        dedupKeyed pyLower
          ((((a :: b :: rs).map (fun r => r.symptoms)).flatten).filter
            (fun y => y ≠ "")) ∧
      (chunkerMergeCore (a :: b :: rs)).medications =
        dedupKeyed pyLower
          ((((a :: b :: rs).map (fun r => r.medications)).flatten).filter
            (fun y => y ≠ "")) ∧
      (chunkerMergeCore (a :: b :: rs)).procedures =
        dedupKeyed pyLower
          ((((a :: b :: rs).map (fun r => r.procedures)).flatten).filter
            (fun y => y ≠ "")) ∧
      (chunkerMergeCore (a :: b :: rs)).lab_values =
        dedupKeyed pyLower
          ((((a :: b :: rs).map (fun r => r.lab_values)).flatten).filter
            (fun y => y ≠ "")) ∧
      (chunkerMergeCore (a :: b :: rs)).body_parts =
        dedupKeyed pyLower
          ((((a :: b :: rs).map (fun r => r.body_parts)).flatten).filter
            (fun y => y ≠ "")) ∧
      (chunkerMergeCore (a :: b :: rs)).risk_flags =
        dedupKeyed pyLower
          ((((a :: b :: rs).map (fun r => r.risk_flags)).flatten).filter
            (fun y => y ≠ ""))) := by
  refine ⟨rfl, rfl,
    ⟨dedup_eq_dedupKeyed _, dedup_eq_dedupKeyed _, dedup_eq_dedupKeyed _,
      dedup_eq_dedupKeyed _, dedup_eq_dedupKeyed _, dedup_eq_dedupKeyed _⟩,
    ?_, ?_, ?_, ?_, ?_, ?_⟩
  · show ((a :: b :: rs).foldl chunkMergeStep chunkMergeInit).merged.symptoms = _
    rw [chunkFold_symptoms, foldl_addItems]
    exact addItems_nil _
  · show ((a :: b :: rs).foldl chunkMergeStep chunkMergeInit).merged.medications = _
    rw [chunkFold_medications, foldl_addItems]
    exact addItems_nil _
  · show ((a :: b :: rs).foldl chunkMergeStep chunkMergeInit).merged.procedures = _
    rw [chunkFold_procedures, foldl_addItems]
    exact addItems_nil _
  · show ((a :: b :: rs).foldl chunkMergeStep chunkMergeInit).merged.lab_values = _
    rw [chunkFold_lab_values, foldl_addItems]
    exact addItems_nil _
  · show ((a :: b :: rs).foldl chunkMergeStep chunkMergeInit).merged.body_parts = _
    rw [chunkFold_body_parts, foldl_addItems]
    exact addItems_nil _
  · show ((a :: b :: rs).foldl chunkMergeStep chunkMergeInit).merged.risk_flags = _
    rw [chunkFold_risk_flags, foldl_addItems]
    exact addItems_nil _

/-- C3 counterexample: neither standalone merge realizes the empty-sequence
contract.  `GeminiAIService._merge([])` raises `ZeroDivisionError` (the
confidence mean divides by `len(results) = 0`), modelled as `none`; and
`merge_chunk_results([])` returns the empty dict — no `status` key, no
`confidence_score` key — also modelled as `none`, rather than a MergedResult
with status `failed` and confidence 0.0. -/
theorem C3_counterexample :
    gemini_merge ([] : List PartialResult) = none ∧
    merge_chunk_results ([] : List PartialResult) = none :=
  ⟨rfl, rfl⟩

/-- C3 (amended): the empty-sequence contract is realized by the merge stage
of `analyze_text` (lines 250–264), which guards the zero-success case and
returns — without raising — the failed dict: status `failed`, the generic
retry-later message, empty/default fields and confidence 0.0. -/
theorem C3_merge_stage_empty :
    mergeStage [] = failedAnalyzeOut ∧
    (mergeStage []).status = "failed" ∧
    (mergeStage []).error = some "AI analysis failed. Please try again later." ∧
    (mergeStage []).cached = false ∧
    (mergeStage []).base.confidence_score = some 0 ∧
    (mergeStage []).base.patient_info = ⟨none, none⟩ ∧
    (mergeStage []).base.symptoms = [] ∧
    (mergeStage []).base.medications = [] ∧
    (mergeStage []).base.procedures = [] ∧
    (mergeStage []).base.lab_values = [] ∧
    (mergeStage []).base.body_parts = [] ∧
    (mergeStage []).base.risk_flags = [] ∧
    (mergeStage []).base.clinical_impression = none ∧
    (mergeStage []).base.specialty_classification = none ∧
    (mergeStage []).base.professional_summary = none ∧
    (mergeStage []).base.patient_friendly_summary = none :=
  ⟨rfl, rfl, rfl, rfl, rfl, rfl, rfl, rfl, rfl, rfl, rfl, rfl, rfl, rfl, rfl, rfl⟩

/-! ### Cache invariants (claim C7) -/

/-- One cache operation: a `get` or a `set` at a given time. -/
inductive CacheOp (α : Type) where
  | get (k : List Char) (now : ℚ)
  | put (k : List Char) (v : α) (now : ℚ)

/-- Apply one operation to the store (the read result of a `get` is
discarded; only its lazy-expiry mutation matters here). -/
def applyOp (maxSize : Nat) (ttl : ℚ) (store : CacheStore α) :
    CacheOp α → CacheStore α
  | .get k now => (cacheGet ttl store k now).2
  | .put k v now => cacheSet maxSize store k v now

/-- Run a sequence of cache operations. -/
def runOps (maxSize : Nat) (ttl : ℚ) (ops : List (CacheOp α))
    (store : CacheStore α) : CacheStore α :=
  ops.foldl (applyOp maxSize ttl) store

/-- Raw lookup of a stored entry (value and insertion time), ignoring TTL. -/
def lookupVal (store : CacheStore α) (key : List Char) : Option (α × ℚ) :=
  (store.find? (fun e => e.1 = key)).map (fun e => e.2)

theorem foldl_min_le_init (l : List ℚ) (init : ℚ) :
    l.foldl min init ≤ init := by
  induction l generalizing init with
  | nil => simp
  | cons x xs ih => exact (ih (min init x)).trans (min_le_left _ _)

theorem foldl_min_le_mem (l : List ℚ) (init : ℚ) (x : ℚ) (hx : x ∈ l) :
    l.foldl min init ≤ x := by
  induction l generalizing init with
  | nil => simp at hx
  | cons y ys ih =>
    rcases List.mem_cons.mp hx with h1 | h1
    · subst h1
      exact (foldl_min_le_init ys (min init x)).trans (min_le_right _ _)
    · exact ih (min init y) h1

theorem foldl_min_mem (l : List ℚ) (init : ℚ) :
    l.foldl min init = init ∨ l.foldl min init ∈ l := by
  induction l generalizing init with
  | nil => simp
  | cons x xs ih =>
    rcases ih (min init x) with h | h
    · rcases min_cases init x with ⟨he, _⟩ | ⟨he, _⟩
      · rw [List.foldl_cons, h, he]
        exact Or.inl rfl
      · rw [List.foldl_cons, h, he]
        exact Or.inr (by simp)
    · exact Or.inr (by simp [List.foldl_cons, h])

/-- Replacing the key-`k` entries does not affect lookups of other keys. -/
theorem find?_map_replace_other (es : CacheStore α) (k : List Char) (v : α)
    (now : ℚ) (q : List Char) (hq : q ≠ k) :
    List.find? (fun e => e.1 = q)
        (es.map (fun e => if e.1 = k then (k, v, now) else e)) =
      List.find? (fun e => e.1 = q) es := by
  induction es with
  | nil => rfl
  | cons e es ih =>
    rw [List.map_cons]
    by_cases hek : e.1 = k
    · rw [if_pos hek, List.find?_cons_of_neg _ (by simpa using hq.symm),
        List.find?_cons_of_neg _ (by rw [hek]; simpa using hq.symm)]
      exact ih
    · rw [if_neg hek]
      by_cases heq : e.1 = q
      · rw [List.find?_cons_of_pos _ (by simpa using heq),
          List.find?_cons_of_pos _ (by simpa using heq)]
      · rw [List.find?_cons_of_neg _ (by simpa using heq),
          List.find?_cons_of_neg _ (by simpa using heq)]
        exact ih

/-- After replacing the key-`k` entries, looking `k` up finds the new
entry (provided the key was present). -/
theorem find?_map_replace_same (es : CacheStore α) (k : List Char) (v : α)
    (now : ℚ) (h : es.any (fun e => e.1 = k) = true) :
    List.find? (fun e => e.1 = k)
        (es.map (fun e => if e.1 = k then (k, v, now) else e)) =
      some (k, v, now) := by
  induction es with
  | nil => simp at h
  | cons e es ih =>
    rw [List.map_cons]
    by_cases hek : e.1 = k
    · rw [if_pos hek, List.find?_cons_of_pos _ (by simp)]
    · rw [if_neg hek, List.find?_cons_of_neg _ (by simpa using hek)]
      refine ih ?_
      rcases List.any_eq_true.mp h with ⟨x, hx, hxk⟩
      rcases List.mem_cons.mp hx with h1 | h1
      · subst h1; exact absurd (by simpa using hxk) hek
      · exact List.any_eq_true.mpr ⟨x, h1, hxk⟩

/-- A failed search continues past an append. -/
theorem find?_append_of_none (l1 l2 : CacheStore α) (p : (List Char × α × ℚ) → Bool)
    (h : List.find? p l1 = none) :
    List.find? p (l1 ++ l2) = List.find? p l2 := by
  induction l1 with
  | nil => rfl
  | cons e es ih =>
    rw [List.find?_cons] at h
    split at h
    · exact absurd h (by simp)
    · next hp =>
      rw [List.cons_append, List.find?_cons_of_neg _ (by simpa using hp)]
      exact ih h

/-- `setEntry` writes the key: the written entry is found. -/
theorem lookupVal_setEntry_same (store : CacheStore α) (k : List Char) (v : α)
    (now : ℚ) : lookupVal (setEntry store k v now) k = some (v, now) := by
  unfold setEntry lookupVal
  split
  · next h =>
    rw [find?_map_replace_same store k v now h]
    rfl
  · next h =>
    have hnone : List.find? (fun e => e.1 = k) store = none := by
      rw [List.find?_eq_none]
      intro x hx
      intro hp
      exact h (List.any_eq_true.mpr ⟨x, hx, hp⟩)
    rw [find?_append_of_none _ _ _ hnone, List.find?_cons_of_pos _ (by simp)]
    rfl

/-- `setEntry` leaves every other key unchanged. -/
theorem lookupVal_setEntry_other (store : CacheStore α) (k : List Char) (v : α)
    (now : ℚ) (q : List Char) (hq : q ≠ k) :
    lookupVal (setEntry store k v now) q = lookupVal store q := by
  unfold setEntry lookupVal
  split
  · rw [find?_map_replace_other store k v now q hq]
  · match hf : List.find? (fun e => e.1 = q) store with
    | some e =>
      rw [List.find?_append]
      rw [hf]
      rfl
    | none =>
      rw [find?_append_of_none _ _ _ hf,
        List.find?_cons_of_neg _ (by simpa using hq.symm), List.find?_nil, hf]

/-- `dropFirstTs` removes exactly the first entry carrying timestamp `m`,
provided one exists and `m` is a lower bound. -/
theorem dropFirstTs_spec (m : ℚ) : ∀ (store : CacheStore α),
    (∃ x ∈ store, entryTs x = m) → (∀ x ∈ store, m ≤ entryTs x) →
    ∃ pre e post, store = pre ++ e :: post ∧
      dropFirstTs m store = pre ++ post ∧ entryTs e = m ∧
      ∀ x ∈ pre, m < entryTs x := by
  intro store
  induction store with
  | nil =>
    intro hmem _
    rcases hmem with ⟨x, hx, _⟩
    simp at hx
  | cons e0 es ih =>
    intro hmem hle
    by_cases h0 : entryTs e0 = m
    · rw [dropFirstTs, if_pos h0]
      exact ⟨[], e0, es, by simp, by simp, h0, by simp⟩
    · rw [dropFirstTs, if_neg h0]
      have hmem1 : ∃ x ∈ es, entryTs x = m := by
        rcases hmem with ⟨x, hx, hxm⟩
        rcases List.mem_cons.mp hx with h1 | h1
        · subst h1; exact absurd hxm h0
        · exact ⟨x, h1, hxm⟩
      obtain ⟨pre, e, post, heq, hev, hem, hlt⟩ :=
        ih hmem1 (fun x hx => hle x (by simp [hx]))
      refine ⟨e0 :: pre, e, post, by rw [List.cons_append, ← heq],
        by rw [List.cons_append, ← hev], hem, ?_⟩
      intro x hx
      rcases List.mem_cons.mp hx with h1 | h1
      · subst h1
        exact lt_of_le_of_ne (hle x (by simp)) (fun hc => h0 hc.symm)
      · exact hlt x h1

/-- `evictOldest` removes exactly the first entry attaining the minimal
insertion timestamp (Python's `min` over dict iteration order). -/
theorem evictOldest_spec (store : CacheStore α) (h : store ≠ []) :
    ∃ pre e post, store = pre ++ e :: post ∧
      evictOldest store = pre ++ post ∧
      (∀ x ∈ store, entryTs e ≤ entryTs x) ∧
      (∀ x ∈ pre, entryTs e < entryTs x) := by
  match store, h with
  | e0 :: es, _ =>
    rw [evictOldest]
    have hmle : ∀ x ∈ e0 :: es, (es.map entryTs).foldl min (entryTs e0) ≤ entryTs x := by
      intro x hx
      rcases List.mem_cons.mp hx with h1 | h1
      · subst h1; exact foldl_min_le_init _ _
      · exact foldl_min_le_mem _ _ _ (List.mem_map_of_mem entryTs h1)
    have hmmem : ∃ x ∈ e0 :: es,
        entryTs x = (es.map entryTs).foldl min (entryTs e0) := by
      rcases foldl_min_mem (es.map entryTs) (entryTs e0) with h1 | h1
      · exact ⟨e0, by simp, h1.symm⟩
      · rcases List.mem_map.mp h1 with ⟨x, hx, hxm⟩
        exact ⟨x, by simp [hx], hxm⟩
    obtain ⟨pre, e, post, heq, hev, hem, hlt⟩ :=
      dropFirstTs_spec _ (e0 :: es) hmmem hmle
    refine ⟨pre, e, post, heq, hev, ?_, ?_⟩
    · intro x hx
      rw [hem]
      exact hmle x hx
    · intro x hx
      rw [hem]
      exact hlt x hx

theorem setEntry_length (store : CacheStore α) (k : List Char) (v : α)
    (now : ℚ) : (setEntry store k v now).length ≤ store.length + 1 := by
  unfold setEntry
  split
  · simp
  · simp

theorem evictOldest_length (store : CacheStore α) (h : store ≠ []) :
    (evictOldest store).length = store.length - 1 := by
  obtain ⟨pre, e, post, heq, hev, _, _⟩ := evictOldest_spec store h
  rw [hev, heq]
  simp

theorem cacheGet_length_le (ttl : ℚ) (store : CacheStore α) (k : List Char)
    (now : ℚ) : ((cacheGet ttl store k now).2).length ≤ store.length := by
  unfold cacheGet
  split
  · exact le_refl _
  · split
    · exact le_refl _
    · exact (List.eraseP_sublist store).length_le

theorem cacheSet_length_le (maxSize : Nat) (store : CacheStore α)
    (k : List Char) (v : α) (now : ℚ) (hmax : 1 ≤ maxSize)
    (h : store.length ≤ maxSize) :
    (cacheSet maxSize store k v now).length ≤ maxSize := by
  unfold cacheSet
  split
  · next hfull =>
    have hne : store ≠ [] := by
      intro hc
      rw [hc] at hfull
      simp at hfull
      omega
    have h1 := setEntry_length (evictOldest store) k v now
    rw [evictOldest_length store hne] at h1
    omega
  · next hroom =>
    have h1 := setEntry_length store k v now
    omega

/-- Any sequence of cache operations keeps the store within `max_size`. -/
theorem runOps_length_le (maxSize : Nat) (ttl : ℚ) (ops : List (CacheOp α))
    (hmax : 1 ≤ maxSize) :
    ∀ store : CacheStore α, store.length ≤ maxSize →
      (runOps maxSize ttl ops store).length ≤ maxSize := by
  induction ops with
  | nil => intro store h; exact h
  | cons op rest ih =>
    intro store h
    rw [runOps, List.foldl_cons]
    refine ih _ ?_
    match op with
    | .get k now => exact (cacheGet_length_le ttl store k now).trans h
    | .put k v now => exact cacheSet_length_le maxSize store k v now hmax h

/-- C7 counterexample: with `max_size = 2`, the puts k1@0, k2@1 fill the
cache; the overwrite put k2@2 nevertheless evicts the oldest entry k1 (the
eviction in `_Cache.set` fires whenever `len >= max`, even when the key is
already present), leaving a single entry — the claim said an overwrite evicts
nothing and k1 should have survived. -/
theorem C7_counterexample :
    runOps 2 3600
        [CacheOp.put "k1".data "v1" 0, CacheOp.put "k2".data "v2" 1,
          CacheOp.put "k2".data "v3" 2] [] = [("k2".data, "v3", 2)] ∧
    lookupVal
        (runOps 2 3600
          [CacheOp.put "k1".data "v1" 0, CacheOp.put "k2".data "v2" 1,
            CacheOp.put "k2".data "v3" 2] ([] : CacheStore String))
        "k1".data = none := by
  refine ⟨by decide, by decide⟩

/-- C7 (amended): after any sequence of gets and puts from an empty store the
cache holds at most `max_size` entries; a put while below capacity evicts
nothing (the key is written, every other key untouched); but a put while at
(or beyond) capacity always evicts the first oldest-inserted entry, even when
the written key is already present — an overwrite at capacity therefore
removes the oldest entry, which may be a different key. -/
theorem C7_cache_bound_eviction (α : Type) (maxSize : Nat) (ttl : ℚ)
    (hmax : 1 ≤ maxSize) :
    (∀ ops : List (CacheOp α), (runOps maxSize ttl ops []).length ≤ maxSize) ∧
    (∀ (store : CacheStore α) (k : List Char) (v : α) (now : ℚ),
      store.length < maxSize →
        lookupVal (cacheSet maxSize store k v now) k = some (v, now) ∧
        ∀ q, q ≠ k →
          lookupVal (cacheSet maxSize store k v now) q = lookupVal store q) ∧
    (∀ (store : CacheStore α) (k : List Char) (v : α) (now : ℚ),
      maxSize ≤ store.length →
        ∃ pre e post, store = pre ++ e :: post ∧
          cacheSet maxSize store k v now = setEntry (pre ++ post) k v now ∧
          (∀ x ∈ store, entryTs e ≤ entryTs x) ∧
          (∀ x ∈ pre, entryTs e < entryTs x)) := by
  refine ⟨?_, ?_, ?_⟩
  · intro ops
    exact runOps_length_le maxSize ttl ops hmax [] (by simp)
  · intro store k v now hroom
    have hset : cacheSet maxSize store k v now = setEntry store k v now := by
      unfold cacheSet
      rw [if_neg (by omega)]
    rw [hset]
    exact ⟨lookupVal_setEntry_same store k v now,
      fun q hq => lookupVal_setEntry_other store k v now q hq⟩
  · intro store k v now hfull
    have hne : store ≠ [] := by
      intro hc
      rw [hc] at hfull
      simp at hfull
      omega
    obtain ⟨pre, e, post, heq, hev, hle, hlt⟩ := evictOldest_spec store hne
    refine ⟨pre, e, post, heq, ?_, hle, hlt⟩
    unfold cacheSet
    rw [if_pos hfull, hev]

/-- C7 witness: the theorem applied with `max_size = 2` to a concrete run and
a concrete full store. -/
theorem C7_witness :
    (runOps 2 3600
        [CacheOp.put "k1".data "v1" 0, CacheOp.put "k2".data "v2" 1,
          CacheOp.put "k2".data "v3" 2] ([] : CacheStore String)).length ≤ 2 ∧
    lookupVal (cacheSet 2 ([] : CacheStore String) "a".data "x" 0) "a".data =
      some ("x", 0) ∧
    (∃ pre e post,
      ([("a".data, "x", (0 : ℚ)), ("b".data, "y", 1)] : CacheStore String) =
        pre ++ e :: post ∧
      cacheSet 2 [("a".data, "x", (0 : ℚ)), ("b".data, "y", 1)] "b".data "z" 2 =
        setEntry (pre ++ post) "b".data "z" 2 ∧
      (∀ x ∈ ([("a".data, "x", (0 : ℚ)), ("b".data, "y", 1)] : CacheStore String),
        entryTs e ≤ entryTs x) ∧
      (∀ x ∈ pre, entryTs e < entryTs x)) :=
  ⟨(C7_cache_bound_eviction String 2 3600 (by decide)).1 _,
    ((C7_cache_bound_eviction String 2 3600 (by decide)).2.1 [] "a".data "x" 0
      (by decide)).1,
    (C7_cache_bound_eviction String 2 3600 (by decide)).2.2
      [("a".data, "x", (0 : ℚ)), ("b".data, "y", 1)] "b".data "z" 2 (by decide)⟩

/-! ### The fingerprint is a digest of the raw text -/

theorem hexVal_hexDigit (n : Nat) (h : n < 16) : hexVal (hexDigit n) = n := by
  have h16 : (∀ m : Fin 16, hexVal (hexDigit m.val) = m.val) := by decide
  exact h16 ⟨n, h⟩

theorem char_toNat_lt (c : Char) : c.toNat < 1114112 := by
  rcases c.valid with h | ⟨_, h⟩
  · exact Nat.lt_trans h (by norm_num)
  · exact h

theorem decChar_encChar (c : Char) : decChar (encChar c) = c.toNat := by
  have hlt : c.toNat < 1114112 := char_toNat_lt c
  have e : decChar (encChar c) =
      hexVal (hexDigit (c.toNat / 16 ^ 5)) * 16 ^ 5 +
        hexVal (hexDigit (c.toNat / 16 ^ 4 % 16)) * 16 ^ 4 +
        hexVal (hexDigit (c.toNat / 16 ^ 3 % 16)) * 16 ^ 3 +
        hexVal (hexDigit (c.toNat / 16 ^ 2 % 16)) * 16 ^ 2 +
        hexVal (hexDigit (c.toNat / 16 % 16)) * 16 +
        hexVal (hexDigit (c.toNat % 16)) := rfl
  rw [e, hexVal_hexDigit _ (by omega), hexVal_hexDigit _ (by omega),
    hexVal_hexDigit _ (by omega), hexVal_hexDigit _ (by omega),
    hexVal_hexDigit _ (by omega), hexVal_hexDigit _ (by omega)]
  omega

theorem encChar_inj {a b : Char} (h : encChar a = encChar b) : a = b := by
  have h1 : a.toNat = b.toNat := by
    rw [← decChar_encChar a, ← decChar_encChar b, h]
  exact Char.eq_of_val_eq (UInt32.ext h1)

/-- C8 counterexample: 'a b' and 'a\nb' are equal after collapsing
whitespace, and both are fixed points of the upstream `normalize_text` (it
does not collapse a single newline into a space), yet their fingerprints
differ: `make_key` digests the raw text with no normalization of its own. -/
theorem C8_counterexample :
    normWs "a b".data = normWs ("a" ++ "\n" ++ "b").data ∧
    normalize_text "a b".data = "a b".data ∧
    normalize_text ("a" ++ "\n" ++ "b").data = ("a" ++ "\n" ++ "b").data ∧
    make_key "a b".data ≠ make_key ("a" ++ "\n" ++ "b").data := by decide

/-- C8 (amended): the cache fingerprint is a collision-free digest of the RAW
document text — two texts share a fingerprint exactly when they are
character-for-character identical.  No whitespace collapse happens at
fingerprint time (and the upstream `normalize_text` leaves single newlines
and single spaces distinct), so a trivially reformatted copy of an analyzed
document does NOT hit the same cache entry. -/
theorem C8_fingerprint_raw_text :
    ∀ t1 t2 : List Char, make_key t1 = make_key t2 ↔ t1 = t2 := by
  intro t1
  induction t1 with
  | nil =>
    intro t2
    cases t2 with
    | nil => simp
    | cons b t2 =>
      constructor
      · intro h
        exfalso
        simp [make_key, encChar] at h
      · intro h; exact absurd h (by simp)
  | cons a t1 ih =>
    intro t2
    cases t2 with
    | nil =>
      constructor
      · intro h
        exfalso
        simp [make_key, encChar] at h
      · intro h; exact absurd h (by simp)
    | cons b t2 =>
      constructor
      · intro h
        simp only [make_key, List.flatMap_cons] at h
        have hlen : (encChar a).length = (encChar b).length := by
          simp [encChar]
        obtain ⟨h1, h2⟩ := List.append_inj h hlen
        have ha := encChar_inj h1
        have hb := (ih t2).mp h2
        rw [ha, hb]
      · intro h; rw [h]

/-! ### The rate limiter admits five and rejects the sixth -/

theorem dropWhile_head_ge (c x : ℚ) (xs : List ℚ) (h : c ≤ x) :
    (x :: xs).dropWhile (fun t => t < c) = x :: xs := by
  rw [List.dropWhile_cons, if_neg]
  simp [not_lt.mpr h]

theorem rateCheck_accept (maxRequests : Nat) (ws : ℚ) (w : List ℚ) (now : ℚ)
    (hpr : w.dropWhile (fun t => t < now - ws) = w)
    (hlen : w.length < maxRequests) :
    rateCheck maxRequests ws w now = (none, w ++ [now]) := by
  simp only [rateCheck]
  rw [hpr, if_neg (not_le.mpr hlen)]

theorem rateCheck_reject (maxRequests : Nat) (ws : ℚ) (w : List ℚ) (now : ℚ)
    (hpr : w.dropWhile (fun t => t < now - ws) = w)
    (hlen : maxRequests ≤ w.length) :
    rateCheck maxRequests ws w now = (some ⌊w.headD 0 + ws - now + 1⌋, w) := by
  simp only [rateCheck]
  rw [hpr, if_pos hlen]

/-- C9: with `max_requests = 5` and `window_seconds = 60`, a client starting
from an empty window whose six calls happen at non-decreasing times all
within one window is accepted five times; the sixth call is rejected with
`retry_after_seconds = int(window[0] + window_seconds - now + 1)` — here
`⌊t1 + 60 - t6 + 1⌋`, since the oldest remaining timestamp is `t1` and the
value is ≥ 1, where Python's `int` truncation coincides with the floor. -/
theorem C9_rate_limiter (t1 t2 t3 t4 t5 t6 : ℚ)
    (h12 : t1 ≤ t2) (h23 : t2 ≤ t3) (h34 : t3 ≤ t4) (h45 : t4 ≤ t5)
    (h56 : t5 ≤ t6) (hwin : t6 ≤ t1 + 60) :
    rateRun 5 60 [] [t1, t2, t3, t4, t5, t6] =
      [none, none, none, none, none, some ⌊t1 + 60 - t6 + 1⌋] ∧
    1 ≤ ⌊t1 + 60 - t6 + 1⌋ := by
  have e1 : rateCheck 5 60 [] t1 = (none, [t1]) :=
    rateCheck_accept 5 60 [] t1 (by simp) (by simp)
  have e2 : rateCheck 5 60 [t1] t2 = (none, [t1, t2]) :=
    rateCheck_accept 5 60 [t1] t2
      (dropWhile_head_ge _ _ _ (by linarith)) (by simp)
  have e3 : rateCheck 5 60 [t1, t2] t3 = (none, [t1, t2, t3]) :=
    rateCheck_accept 5 60 [t1, t2] t3
      (dropWhile_head_ge _ _ _ (by linarith)) (by simp)
  have e4 : rateCheck 5 60 [t1, t2, t3] t4 = (none, [t1, t2, t3, t4]) :=
    rateCheck_accept 5 60 [t1, t2, t3] t4
      (dropWhile_head_ge _ _ _ (by linarith)) (by simp)
  have e5 : rateCheck 5 60 [t1, t2, t3, t4] t5 =
      (none, [t1, t2, t3, t4, t5]) :=
    rateCheck_accept 5 60 [t1, t2, t3, t4] t5
      (dropWhile_head_ge _ _ _ (by linarith)) (by simp)
  have e6 : rateCheck 5 60 [t1, t2, t3, t4, t5] t6 =
      (some ⌊t1 + 60 - t6 + 1⌋, [t1, t2, t3, t4, t5]) := by
    have h := rateCheck_reject 5 60 [t1, t2, t3, t4, t5] t6
      (dropWhile_head_ge _ _ _ (by linarith)) (by simp)
    simpa using h
  refine ⟨?_, ?_⟩
  · simp only [rateRun, e1, e2, e3, e4, e5, e6]
  · exact Int.le_floor.mpr (by push_cast; linarith)

/-- C9 witness: six calls at time 0. -/
theorem C9_witness :
    rateRun 5 60 [] [0, 0, 0, 0, 0, 0] =
      [none, none, none, none, none, some ⌊(0 : ℚ) + 60 - 0 + 1⌋] ∧
    1 ≤ ⌊(0 : ℚ) + 60 - 0 + 1⌋ :=
  C9_rate_limiter 0 0 0 0 0 0 le_rfl le_rfl le_rfl le_rfl le_rfl
    (by norm_num)

/-! ### `analyze_text` statuses -/

/-- C1: on a cache miss, `analyze_text` returns exactly the merge of the
successful chunk results — failed chunks are dropped, not fatal.  When every
chunk failed the result has status `failed`, the generic retry-later message
and confidence 0.0; when at least one chunk succeeded the result has status
`success` and no error. -/
theorem C1_analyze_statuses (store : CacheStore AnalyzeOut) (text : List Char)
    (oracle : Nat → List Char → Option PartialResult) (now : ℚ)
    (hmiss : (cacheGet 3600 store (make_key text) now).1 = none) :
    (analyze_text store text oracle now).1 =
      mergeStage (((gemini_chunk_text text 6000).enum.map
        (fun e => oracle e.1 e.2)).filterMap id) ∧
    (((gemini_chunk_text text 6000).enum.map
        (fun e => oracle e.1 e.2)).filterMap id = [] →
      (analyze_text store text oracle now).1.status = "failed" ∧
      (analyze_text store text oracle now).1.error =
        some "AI analysis failed. Please try again later." ∧
      (analyze_text store text oracle now).1.base.confidence_score = some 0) ∧
    (((gemini_chunk_text text 6000).enum.map
        (fun e => oracle e.1 e.2)).filterMap id ≠ [] →
      (analyze_text store text oracle now).1.status = "success" ∧
      (analyze_text store text oracle now).1.error = none) := by
  have hget : cacheGet 3600 store (make_key text) now =
      (none, (cacheGet 3600 store (make_key text) now).2) := by
    rw [← hmiss]
  have ha : (analyze_text store text oracle now).1 =
      mergeStage (((gemini_chunk_text text 6000).enum.map
        (fun e => oracle e.1 e.2)).filterMap id) := by
    simp only [analyze_text]
    rw [hget]
    split
    · next h => exact absurd h (by simp)
    · next h =>
      split
      · next hnil =>
        rw [hnil]
        rfl
      · rfl
  refine ⟨ha, ?_, ?_⟩
  · intro h0
    rw [ha, h0]
    exact ⟨rfl, rfl, rfl⟩
  · intro hne
    rw [ha]
    match hr : ((gemini_chunk_text text 6000).enum.map
        (fun e => oracle e.1 e.2)).filterMap id with
    | [] => exact absurd hr hne
    | r :: rs =>
      rw [hr]
      exact ⟨rfl, rfl⟩

/-- C1 witness: an empty cache, the one-chunk text `x`, an oracle that
succeeds on every chunk and one that fails on every chunk. -/
theorem C1_witness :
    (analyze_text [] "x".data (fun _ _ => some {}) 0).1.status = "success" ∧
    (analyze_text [] "x".data (fun _ _ => none) 0).1.status = "failed" ∧
    (analyze_text [] "x".data (fun _ _ => none) 0).1.error =
      some "AI analysis failed. Please try again later." ∧
    (analyze_text [] "x".data (fun _ _ => none) 0).1.base.confidence_score =
      some 0 :=
  ⟨((C1_analyze_statuses [] "x".data (fun _ _ => some {}) 0
      (by decide)).2.2 (by decide)).1,
    ((C1_analyze_statuses [] "x".data (fun _ _ => none) 0
      (by decide)).2.1 (by decide)).1,
    ((C1_analyze_statuses [] "x".data (fun _ _ => none) 0
      (by decide)).2.1 (by decide)).2.1,
    ((C1_analyze_statuses [] "x".data (fun _ _ => none) 0
      (by decide)).2.1 (by decide)).2.2⟩

/-! ### Failed analyses are not cached -/

theorem find?_of_not_mem_eraseP (p : α → Bool) :
    ∀ (l : List α) (e : α), e ∈ l → e ∉ l.eraseP p → l.find? p = some e := by
  intro l
  induction l with
  | nil =>
    intro e he _
    exact absurd he (by simp)
  | cons a t ih =>
    intro e he hne
    by_cases hpa : p a
    · rw [List.eraseP_cons_of_pos hpa] at hne
      rw [List.find?_cons_of_pos _ hpa]
      rcases List.mem_cons.mp he with h | h
      · rw [h]
      · exact absurd h hne
    · rw [List.eraseP_cons_of_neg (by simpa using hpa)] at hne
      rw [List.find?_cons_of_neg _ (by simpa using hpa)]
      rcases List.mem_cons.mp he with h | h
      · exact absurd (by rw [h]; exact List.mem_cons_self a _) hne
      · exact ih e h (fun hc => hne (List.mem_cons_of_mem a hc))

/-- C10 counterexample: an expired entry for the same fingerprint sits in the
cache; the analysis misses, every chunk fails, the result has status
`failed` — and the store HAS changed: the lazy TTL expiry inside
`_Cache.get` deleted the expired entry.  The claim's 'cache is left
unchanged' is false in the physical sense. -/
theorem C10_counterexample :
    (analyze_text
        [(make_key "x".data,
          ({ base := {}, status := "success", error := none,
             cached := false } : AnalyzeOut), 0)]
        "x".data (fun _ _ => none) 3600).1.status = "failed" ∧
    (analyze_text
        [(make_key "x".data,
          ({ base := {}, status := "success", error := none,
             cached := false } : AnalyzeOut), 0)]
        "x".data (fun _ _ => none) 3600).2 = [] ∧
    [(make_key "x".data,
      ({ base := {}, status := "success", error := none,
         cached := false } : AnalyzeOut), 0)] ≠ ([] : CacheStore AnalyzeOut) := by
  have hfind : ([(make_key "x".data,
      ({ base := {}, status := "success", error := none,
         cached := false } : AnalyzeOut), (0 : ℚ))]).find?
        (fun e => e.1 = make_key "x".data) =
      some (make_key "x".data,
        ({ base := {}, status := "success", error := none,
           cached := false } : AnalyzeOut), (0 : ℚ)) := by decide
  have hget : cacheGet 3600
      [(make_key "x".data,
        ({ base := {}, status := "success", error := none,
           cached := false } : AnalyzeOut), 0)]
      (make_key "x".data) 3600 = (none, []) := by
    unfold cacheGet
    rw [hfind]
    dsimp only
    rw [if_neg (by norm_num)]
    decide
  refine ⟨?_, ?_, by simp⟩
  · simp only [analyze_text]
    rw [hget]
    rfl
  · simp only [analyze_text]
    rw [hget]
    rfl

/-- C10 (amended): on a cache miss where every chunk fails, `analyze_text`
returns the failed dict and inserts nothing into the cache: the store
afterwards is exactly the store left by the initial `get` — a sublist of the
original store, from which at most the lazy TTL expiry of `get` removed the
looked-up entry, and any removed entry carried this text's fingerprint and
was already expired (so no later read could have seen it).  In particular no
failure result is ever cached and an identical retry re-runs the pipeline. -/
theorem C10_failed_not_cached (store : CacheStore AnalyzeOut) (text : List Char)
    (oracle : Nat → List Char → Option PartialResult) (now : ℚ)
    (hmiss : (cacheGet 3600 store (make_key text) now).1 = none)
    (hall : ((gemini_chunk_text text 6000).enum.map
      (fun e => oracle e.1 e.2)).filterMap id = []) :
    (analyze_text store text oracle now).1.status = "failed" ∧
    (analyze_text store text oracle now).2 =
      (cacheGet 3600 store (make_key text) now).2 ∧
    List.Sublist (analyze_text store text oracle now).2 store ∧
    (∀ e ∈ store, e ∉ (analyze_text store text oracle now).2 →
      e.1 = make_key text ∧ 3600 ≤ now - entryTs e) := by
  have hget : cacheGet 3600 store (make_key text) now =
      (none, (cacheGet 3600 store (make_key text) now).2) := by
    rw [← hmiss]
  have ha : analyze_text store text oracle now =
      (failedAnalyzeOut, (cacheGet 3600 store (make_key text) now).2) := by
    simp only [analyze_text]
    rw [hget]
    split
    · next h => exact absurd h (by simp)
    · next h =>
      rw [if_pos hall]
      injection h with h1 h2
      rw [h2]
  have hsub : List.Sublist (cacheGet 3600 store (make_key text) now).2 store := by
    unfold cacheGet
    split
    · exact List.Sublist.refl store
    · split
      · exact List.Sublist.refl store
      · exact List.eraseP_sublist store
  refine ⟨by rw [ha]; rfl, by rw [ha], by rw [ha]; exact hsub, ?_⟩
  intro e he hmem
  rw [ha] at hmem
  unfold cacheGet at hmiss hmem
  rcases hfind : store.find? (fun x => x.1 = make_key text) with _ | e0
  · rw [hfind] at hmem
    dsimp only at hmem
    exact absurd he hmem
  · rw [hfind] at hmiss hmem
    dsimp only at hmiss hmem
    by_cases hc : now - e0.2.2 < 3600
    · rw [if_pos hc] at hmiss
      exact absurd hmiss (by simp)
    · rw [if_neg hc] at hmem
      have h2 := find?_of_not_mem_eraseP
        (fun x => decide (x.1 = make_key text)) store e he hmem
      rw [hfind] at h2
      injection h2 with h3
      have hkey : e0.1 = make_key text := by
        have := List.find?_some hfind
        simpa using this
      constructor
      · rw [← h3]
        exact hkey
      · rw [← h3]
        exact le_of_not_lt (by simpa [entryTs] using hc)

/-- C10 witness: empty cache, one-chunk text, oracle failing on every
chunk. -/
theorem C10_witness :
    (analyze_text [] "x".data (fun _ _ => none) 0).1.status = "failed" ∧
    (analyze_text [] "x".data (fun _ _ => none) 0).2 =
      (cacheGet 3600 [] (make_key "x".data) 0).2 ∧
    List.Sublist (analyze_text [] "x".data (fun _ _ => none) 0).2 [] ∧
    (∀ e ∈ ([] : CacheStore AnalyzeOut),
      e ∉ (analyze_text [] "x".data (fun _ _ => none) 0).2 →
        e.1 = make_key "x".data ∧ 3600 ≤ 0 - entryTs e) :=
  C10_failed_not_cached [] "x".data (fun _ _ => none) 0 (by decide) (by decide)

end MedPipeline
